import Mathlib

/-!
# git-shame: the `GitShame` class of `src/index.js`

A shallow embedding of the log parser and of the aggregation passes of `GitShame`.

Conventions of the embedding.

* A JavaScript string is a list of characters (`Str`).  The log text is what `git log` printed,
  decoded as UTF-8, so it is a sequence of Unicode scalar values; every character the program
  looks for (`'\n'`, `'|'`, the keywords) is in the ASCII range.
* `getGitLog` runs an external process.  Every operation of the class reads the log once, so the
  log text is the argument of each embedded operation; `getGitLog` itself is embedded as a
  function of how the external call ended.
* `String.prototype.toLowerCase` is the host's Unicode lower-casing.  It is the parameter
  `toLowerCase` of every definition that calls it, and the general theorems hold for each choice
  of it.  `toLowerASCII` is its action on Basic Latin text and is used on concrete logs.
* Counts are natural numbers.  The program's numbers are IEEE doubles, exact below `2 ^ 53`,
  far above the number of lines a string can hold.  The quotient and the product that
  `getHallOfFame` computes are not exact: they are embedded as binary64 operations, rounding
  included.
* A `limit` is an integer.  `slice` truncates a limit that is not an integer, and takes an
  infinite one as a limit beyond the length, so every numeric limit acts as some integer.
* `scores`, `details` and the accumulator of `getCIFailureStats` are objects created with `{}`.
  They inherit from `Object.prototype`, and the embedding follows the language's property
  lookup and assignment for the inherited names.  The built-in objects are taken as the engine
  creates them: no earlier call has put counters on them.
* `timestamp` (the wall clock) is not part of the embedded result.
-/

namespace GitShame

/-- JavaScript string: a sequence of characters. -/
abbrev Str := List Char

/-! ## String primitives -/

/-- `s.includes(k)`: `k` occurs in `s` as a contiguous run. -/
def includes : Str → Str → Bool
  | [], k => k.isEmpty
  | c :: cs, k => k.isPrefixOf (c :: cs) || includes cs k

/-- `s.split(sep)` for a one-character separator: the pieces between occurrences of `sep`.
The result always has at least one piece (`"".split(sep)` is `[""]`). -/
def split (sep : Char) : Str → List Str
  | [] => [[]]
  | c :: cs =>
    if c = sep then [] :: split sep cs
    else
      match split sep cs with
      | [] => [[c]]
      | p :: ps => (c :: p) :: ps

/-- `parts.join(sep)`: the pieces with `sep` between neighbours; the empty array gives `""`. -/
def join (sep : Str) : List Str → Str
  | [] => []
  | [p] => p
  | p :: q :: ps => p ++ sep ++ join sep (q :: ps)

/-- Code points removed by `String.prototype.trim`: ECMAScript `WhiteSpace` and
`LineTerminator`. -/
def isWhiteSpace (c : Char) : Bool :=
  let n := c.toNat
  n == 0x09 || n == 0x0A || n == 0x0B || n == 0x0C || n == 0x0D || n == 0x20 || n == 0xA0 ||
  n == 0x1680 || (0x2000 ≤ n && n ≤ 0x200A) || n == 0x2028 || n == 0x2029 || n == 0x202F ||
  n == 0x205F || n == 0x3000 || n == 0xFEFF

/-- `s.trim()`: white space removed from both ends. -/
def trim (s : Str) : Str :=
  ((s.dropWhile isWhiteSpace).reverse.dropWhile isWhiteSpace).reverse

/-- `x || dflt` for a value that is a string or `undefined` (`none`): the empty string and
`undefined` are falsy. -/
def orElse (x : Option Str) (dflt : Str) : Str :=
  match x with
  | none => dflt
  | some [] => dflt
  | some s => s

/-- Lower-casing of Basic Latin text: `A`..`Z` go to `a`..`z`, other characters stay. -/
def toLowerASCII (s : Str) : Str := s.map Char.toLower

/-! ## Commits and `parseCommits` -/

/-- One parsed log line. -/
structure Commit where
  hash : Str
  author : Str
  email : Str
  message : Str
  deriving DecidableEq, Repr

/-- The arrow function mapped over the lines in `parseCommits`:
`const [hash, author, email, ...messageParts] = line.split('|')`. -/
def parseLine (line : Str) : Commit :=
  let parts := split '|' line
  { hash := parts.headD []
    author := orElse parts[1]? "unknown".toList
    email := orElse parts[2]? []
    message := orElse (some (join ['|'] (parts.drop 3))) [] }

/-- `parseCommits(log)`. -/
def parseCommits (log : Str) : List Commit :=
  ((split '\n' log).filter (fun line => !(trim line).isEmpty)).map parseLine

/-! ## Plain objects used as maps

`scores`, `details` and the accumulator of `getCIFailureStats` are created as `{}` and indexed
by author name.  Such an object holds its own properties and inherits those of
`Object.prototype`, so for some keys `obj[k]` is defined before anything was stored. -/

/-- Own enumerable properties of an object, in creation order. -/
abbrev Obj (α : Type) := List (Str × α)

/-- Own property `k` of `o`, if there is one. -/
def Obj.getOwn {α : Type} (o : Obj α) (k : Str) : Option α :=
  match o with
  | [] => none
  | (k', v) :: rest => if k' = k then some v else Obj.getOwn rest k

/-- The object after own property `k` is written: an existing property keeps its place, a new
one goes last. -/
def Obj.setOwn {α : Type} (o : Obj α) (k : Str) (v : α) : Obj α :=
  match o with
  | [] => [(k, v)]
  | (k', v') :: rest => if k' = k then (k', v) :: rest else (k', v') :: Obj.setOwn rest k v

/-- Names of the properties of `Object.prototype` in Node.js (ECMA-262 sections 20.1.3 and
B.2.2).  All are functions except the accessor `__proto__`. -/
def objectPrototypeKeys : List Str :=
  ["constructor".toList, "__defineGetter__".toList, "__defineSetter__".toList,
   "hasOwnProperty".toList, "__lookupGetter__".toList, "__lookupSetter__".toList,
   "isPrototypeOf".toList, "propertyIsEnumerable".toList, "toString".toList,
   "valueOf".toList, "__proto__".toList, "toLocaleString".toList]

/-- Result of converting the function `Object.prototype[k]` to a string, as V8 prints a
built-in: `Object.prototype.constructor` is the function named `Object`, each other function is
named after its key. -/
def nativeText (k : Str) : Str :=
  "function ".toList ++ (if k = "constructor".toList then "Object".toList else k) ++
    "() \x7b [native code] \x7d".toList

/-- An array index in the sense of ECMA-262: the canonical decimal numeral of an integer
between `0` and `2 ^ 32 - 2`. -/
def arrayIndex? (k : Str) : Option Nat :=
  match k with
  | [] => none
  | c :: cs =>
    if (c :: cs).all Char.isDigit && (c != '0' || cs.isEmpty) then
      let n := (c :: cs).foldl (fun acc d => 10 * acc + (d.toNat - 48)) 0
      if n ≤ 4294967294 then some n else none
    else none

/-- `Object.entries(o)`: the own properties whose key is an array index, in increasing index
order, then the other own properties in creation order. -/
def Obj.entries {α : Type} (o : Obj α) : List (Str × α) :=
  (o.filter (fun p => (arrayIndex? p.1).isSome)).insertionSort
      (fun p q => (arrayIndex? p.1).getD 0 ≤ (arrayIndex? q.1).getD 0)
    ++ o.filter (fun p => (arrayIndex? p.1).isNone)

/-- Values stored in a tally object: a count, or the string that `+` produces when its left
operand is a built-in function. -/
inductive JsVal where
  | num (n : Nat)
  | str (s : Str)
  deriving DecidableEq, Repr

/-- The statement `obj[k] = (obj[k] || 0) + pts`.

* own number `n`: `n + pts`;
* own string `s`: string concatenation (the empty string is falsy and gives `0 + pts`);
* no own property, `k` is `__proto__`: the operand is `Object.prototype`, the sum is a string,
  and the `__proto__` setter ignores a value that is not an object: nothing is stored;
* no own property, `k` names a function of `Object.prototype`: the function is truthy, `+`
  converts it to its source text and appends the digits of `pts`;
* otherwise `obj[k]` is `undefined` and `0 + pts` is stored. -/
def addPoints (pts : Nat) (o : Obj JsVal) (k : Str) : Obj JsVal :=
  match o.getOwn k with
  | some (.num n) => o.setOwn k (.num (n + pts))
  | some (.str s) =>
    o.setOwn k (if s = [] then .num pts else .str (s ++ Nat.toDigits 10 pts))
  | none =>
    if k = "__proto__".toList then o
    else if k ∈ objectPrototypeKeys then o.setOwn k (.str (nativeText k ++ Nat.toDigits 10 pts))
    else o.setOwn k (.num pts)

/-- Number held by a counter property: an integer or `NaN`. -/
inductive Num where
  | int (n : Nat)
  | nan
  deriving DecidableEq, Repr

/-- `x++` on a property: `undefined` (`none`) becomes `NaN`, `NaN` stays, a count goes up. -/
def increment : Option Num → Option Num
  | none => some .nan
  | some .nan => some .nan
  | some (.int n) => some (.int (n + 1))

/-- The enumerable own properties `reverts`, `fixes`, `changes` of an object; `none` is a
property that is absent. -/
structure Detail where
  reverts : Option Num
  fixes : Option Num
  changes : Option Num
  deriving DecidableEq, Repr

/-- The literal `{ reverts: 0, fixes: 0, changes: 0 }`. -/
def Detail.zero : Detail := ⟨some (.int 0), some (.int 0), some (.int 0)⟩

/-- No counter property at all: a built-in object before the program touched it, or the spread
of `undefined`. -/
def Detail.absent : Detail := ⟨none, none, none⟩

/-- The three variables the loops of `getShameScores` update.  `builtins` holds, per key of
`Object.prototype`, the counter properties put on the built-in object that `details[key]`
evaluates to; the built-ins start without any. -/
structure Tally where
  scores : Obj JsVal
  details : Obj Detail
  builtins : Obj Detail
  deriving DecidableEq, Repr

/-- The statements `if (!details[a]) details[a] = { reverts: 0, fixes: 0, changes: 0 };`
`details[a].f++`, with `upd` the increment of field `f`.  For a key of `Object.prototype` the
value of `details[a]` is an inherited object, which is truthy: no own property is created and
the increment lands on that built-in object. -/
def touchDetail (upd : Detail → Detail) (t : Tally) (a : Str) : Tally :=
  match t.details.getOwn a with
  | some d => { t with details := t.details.setOwn a (upd d) }
  | none =>
    if a ∈ objectPrototypeKeys then
      { t with builtins := t.builtins.setOwn a (upd ((t.builtins.getOwn a).getD Detail.absent)) }
    else { t with details := t.details.setOwn a (upd Detail.zero) }

/-- Value of `details[a]` when it is spread into a leaderboard row. -/
def spreadDetail (t : Tally) (a : Str) : Detail :=
  match t.details.getOwn a with
  | some d => d
  | none => if a ∈ objectPrototypeKeys then (t.builtins.getOwn a).getD Detail.absent
            else Detail.absent

/-- A row of the leaderboard. -/
structure LeaderboardEntry where
  rank : Nat
  author : Str
  score : JsVal
  reverts : Option Num
  fixes : Option Num
  changes : Option Num
  deriving DecidableEq, Repr

/-- The value `getShameScores` resolves to, without `timestamp`. -/
structure ShameScores where
  leaderboard : List LeaderboardEntry
  totalCommits : Nat
  deriving DecidableEq, Repr

/-- The comparator `([, a], [, b]) => b - a` as the order it asks of `sort`: `x` may stay in
front of `y` unless `b - a` is positive.  A string score is the source text of a built-in
followed by digits, so `b - a` is `NaN` and `sort` takes the two as equal. -/
def scoreOrder (x y : Str × JsVal) : Prop :=
  match x.2, y.2 with
  | .num a, .num b => b ≤ a
  | _, _ => True

instance : DecidableRel scoreOrder := fun x y => by
  unfold scoreOrder
  cases x.2 <;> cases y.2 <;> infer_instance

/-- The first loop body of `getShameScores`. -/
def countRevert (t : Tally) (c : Commit) : Tally :=
  touchDetail (fun d => { d with reverts := increment d.reverts })
    { t with scores := addPoints 10 t.scores c.author } c.author

/-- The second loop body of `getShameScores`. -/
def countCIFailure (t : Tally) (c : Commit) : Tally :=
  touchDetail (fun d => { d with fixes := increment d.fixes })
    { t with scores := addPoints 5 t.scores c.author } c.author

/-- The third loop body of `getShameScores`. -/
def countChange (t : Tally) (c : Commit) : Tally :=
  touchDetail (fun d => { d with changes := increment d.changes }) t c.author

/-- The row built by the `map` callback of `getShameScores` at 0-based position `rank`. -/
def makeEntry (t : Tally) (rank : Nat) (row : Str × JsVal) : LeaderboardEntry :=
  let d := spreadDetail t row.1
  { rank := rank + 1, author := row.1, score := row.2,
    reverts := d.reverts, fixes := d.fixes, changes := d.changes }

/-- Sum of the numeric values of a tally object (a string value adds nothing). -/
def sumCounts (o : Obj JsVal) : Nat :=
  (o.map (fun p => match p.2 with
    | .num n => n
    | .str _ => 0)).sum

/-- Result of `getCIFailureStats`. -/
structure CIFailureStats where
  totalBreaking : Nat
  byAuthor : Obj JsVal
  deriving DecidableEq, Repr

/-! ## Numbers of `getHallOfFame`

`(stats.commits - stats.reverts) / stats.commits * 100` is computed on IEEE 754 binary64
numbers: each operation rounds its exact result to the nearest representable number, ties to
the one with an even significand.  The numbers that arise lie between 0 and 100; a number below
`2 ^ 53` is kept as `mant / 2 ^ scale`. -/

/-- A finite non-negative binary64 number below `2 ^ 53`, with value `mant / 2 ^ scale`. -/
structure Double where
  mant : Nat
  scale : Nat
  deriving DecidableEq, Repr

/-- Integer nearest to `num / den`, a tie going to the even one (`den` is positive). -/
def roundHalfEven (num den : Nat) : Nat :=
  let q := num / den
  let r := num % den
  if 2 * r < den then q
  else if den < 2 * r then q + 1
  else if q % 2 = 0 then q else q + 1

/-- Number of binary digits of `n`, counted with `fuel` halvings at most. -/
def bitLengthAux : Nat → Nat → Nat
  | 0, _ => 0
  | fuel + 1, n => if n = 0 then 0 else 1 + bitLengthAux fuel (n / 2)

/-- Number of binary digits of `n` (0 for 0). -/
def bitLength (n : Nat) : Nat := bitLengthAux n n

/-- The scale of the binary64 number nearest to `a / b` (`a`, `b` positive, `a / b` below
`2 ^ 53`): the `k` with `2 ^ 52 ≤ a * 2 ^ k / b < 2 ^ 53`, so that the significand has 53
binary digits, and at most 1074, the scale of the subnormal numbers. -/
def scaleOf (a b : Nat) : Nat :=
  let k0 := 52 + bitLength b - bitLength a
  let k := if b * 2 ^ 52 ≤ a * 2 ^ k0 then k0 else k0 + 1
  min k 1074

/-- The binary64 number nearest to `a / b`, ties to even (`b` positive, `a / b` below
`2 ^ 53`). -/
def roundFrac (a b : Nat) : Double :=
  if a = 0 then ⟨0, 0⟩ else ⟨roundHalfEven (a * 2 ^ scaleOf a b) b, scaleOf a b⟩

/-- The numeral of `n / 10` with one digit after the point, as `toFixed(1)` writes it: the
digits of `n`, padded to two digits with a zero, with the point before the last digit. -/
def oneDecimal (n : Nat) : Str :=
  let ds := Nat.toDigits 10 n
  let ds := if ds.length ≤ 1 then '0' :: ds else ds
  ds.take (ds.length - 1) ++ ['.'] ++ ds.drop (ds.length - 1)

/-- The integer `n` for which `n / 10` is nearest to `d`, the larger one on a tie. -/
def tenths (d : Double) : Nat := (20 * d.mant + 2 ^ d.scale) / 2 ^ (d.scale + 1)

/-- `d.toFixed(1)` for a number below `10 ^ 21`. -/
def toFixed1 (d : Double) : Str := oneDecimal (tenths d)

/-- Value of a run of decimal digits. -/
def digitsValue (ds : Str) : Nat := ds.foldl (fun acc d => 10 * acc + (d.toNat - 48)) 0

/-- `parseFloat(s)` for an unsigned decimal numeral without exponent, which is what `toFixed`
returns here: digits, then optionally a point and digits; `none` is `NaN`. -/
def parseFloat (s : Str) : Option Double :=
  let whole := s.takeWhile Char.isDigit
  let frac := match s.dropWhile Char.isDigit with
    | '.' :: t => t.takeWhile Char.isDigit
    | _ => []
  if whole.isEmpty && frac.isEmpty then none
  else some (roundFrac (digitsValue (whole ++ frac)) (10 ^ frac.length))

/-- `l.slice(0, limit)` for an integer `limit`: a negative `limit` counts from the end. -/
def sliceTo {α : Type} (l : List α) (limit : Int) : List α :=
  if limit < 0 then l.take (l.length - limit.natAbs) else l.take limit.toNat

/-- The counters `{ commits, reverts }` kept per author by `getHallOfFame`. -/
structure AuthorStat where
  commits : Nat
  reverts : Nat
  deriving DecidableEq, Repr

/-- A row of the hall of fame.  `quality` is the string made by `toFixed(1)`, or the number 0
of the other branch of the conditional. -/
structure FameEntry where
  author : Str
  commits : Nat
  reverts : Nat
  quality : JsVal
  deriving DecidableEq, Repr

/-- The expression that computes `quality` in the `map` callback of `getHallOfFame`. -/
def qualityOf (s : AuthorStat) : JsVal :=
  if s.commits > 0 then
    let ratio := roundFrac (s.commits - s.reverts) s.commits
    let percent := roundFrac (100 * ratio.mant) (2 ^ ratio.scale)
    .str (toFixed1 percent)
  else .num 0

/-- `parseFloat(q)` for a `quality` value; a number is first converted to its numeral. -/
def parseQuality (q : JsVal) : Option Double :=
  match q with
  | .str s => parseFloat s
  | .num n => some (roundFrac n 1)

/-- The comparator `(a, b) => parseFloat(b.quality) - parseFloat(a.quality)` as the order it
asks of `sort`: `x` may stay in front of `y` unless the difference is positive. -/
def fameOrder (x y : FameEntry) : Prop :=
  match parseQuality x.quality, parseQuality y.quality with
  | some a, some b => b.mant * 2 ^ a.scale ≤ a.mant * 2 ^ b.scale
  | _, _ => True

instance : DecidableRel fameOrder := fun x y => by
  unfold fameOrder
  cases parseQuality x.quality <;> cases parseQuality y.quality <;> infer_instance

/-- Result of `getRevertStats`. -/
structure RevertStats where
  totalReverts : Nat
  byAuthor : Obj JsVal
  recentReverts : List Commit
  deriving DecidableEq, Repr

/-- `getGitLog()`, given how the call of the external command ended: its standard output, or
the error that `execAsync` raised, which the `catch` turns into the empty string. -/
def getGitLog (result : Except String Str) : Str :=
  match result with
  | .ok stdout => stdout
  | .error _ => []

/-! ## The operations of `GitShame` -/

section Lower

variable (toLowerCase : Str → Str)

/-- Filter of `reverts` in `getShameScores`. -/
def isRevertLike (c : Commit) : Bool :=
  includes (toLowerCase c.message) "revert".toList ||
  includes (toLowerCase c.message) "fix:".toList ||
  includes (toLowerCase c.message) "hotfix".toList

/-- Filter of `ciFailures` in `getShameScores`. -/
def isCIFailure (c : Commit) : Bool :=
  includes (toLowerCase c.message) "ci".toList ||
  includes (toLowerCase c.message) "fix".toList ||
  includes (toLowerCase c.message) "emergency".toList

/-- The state of `scores` and `details` after the three loops of `getShameScores`. -/
def tally (commits : List Commit) : Tally :=
  let reverts := commits.filter (isRevertLike toLowerCase)
  let ciFailures := commits.filter (isCIFailure toLowerCase)
  let t1 := reverts.foldl countRevert ⟨[], [], []⟩
  let t2 := ciFailures.foldl countCIFailure t1
  commits.foldl countChange t2

/-- `getShameScores()` on the log text `log`.  No statement of the `try` block throws when the
log is a string, so the `catch` branch is not embedded.  `sort` is stable, and its result is
fixed by the language when the comparator is a consistent ordering, as it is when all scores
are numbers or when all comparisons give zero or `NaN`; otherwise the order is left to the
engine.  The embedding uses insertion sort, which is stable.  For a log that puts a string
score among rows with different numeric scores, the rows of the embedding can come in another
order than the engine's; the facts below that speak of the order assume that no author is a key
of `Object.prototype`, or are evaluated on a log where the language fixes the order. -/
def getShameScores (log : Str) : ShameScores :=
  let commits := parseCommits log
  let t := tally toLowerCase commits
  { leaderboard := ((Obj.entries t.scores).insertionSort scoreOrder).mapIdx (makeEntry t)
    totalCommits := commits.length }

/-- Filter of `breakingCommits` in `getCIFailureStats`. -/
def isBreaking (c : Commit) : Bool :=
  let msg := toLowerCase c.message
  includes msg "break".toList || includes msg "emergency".toList ||
  includes msg "hotfix".toList || includes msg "rollback".toList

/-- Condition of the `if` in the reducer of `getCIFailureStats`. -/
def countsForAuthor (c : Commit) : Bool :=
  let msg := toLowerCase c.message
  includes msg "break".toList || includes msg "emergency".toList

/-- `getCIFailureStats()` on the log text `log`. -/
def getCIFailureStats (log : Str) : CIFailureStats :=
  let commits := parseCommits log
  let breakingCommits := commits.filter (isBreaking toLowerCase)
  { totalBreaking := breakingCommits.length
    byAuthor := commits.foldl
      (fun acc c => if countsForAuthor toLowerCase c then addPoints 1 acc c.author else acc) [] }

/-! ## `getStreak` -/

/-- The test that ends the loop of `getStreak`. -/
def breaksStreak (c : Commit) : Bool :=
  let msg := toLowerCase c.message
  includes msg "revert".toList || includes msg "rollback".toList

/-- The `for` loop of `getStreak`, started with the commits not yet visited and the current
value of `streak`. -/
def streakLoop : List Commit → Nat → Nat
  | [], streak => streak
  | c :: rest, streak =>
    if breaksStreak toLowerCase c then streak else streakLoop rest (streak + 1)

/-- `getStreak(author)` on the log text `log`. -/
def getStreak (log : Str) (author : Str) : Nat :=
  let commits := (parseCommits log).filter (fun c => c.author = author)
  streakLoop toLowerCase commits 0

/-! ## `getRevertStats`, `getHallOfShame`, `getHallOfFame` -/

/-- Filter of `revertCommits` in `getRevertStats`, and the test of `getHallOfFame`. -/
def isRevert (c : Commit) : Bool :=
  includes (toLowerCase c.message) "revert".toList

/-- `getRevertStats()` on the log text `log`. -/
def getRevertStats (log : Str) : RevertStats :=
  let commits := parseCommits log
  let revertCommits := commits.filter (isRevert toLowerCase)
  { totalReverts := revertCommits.length
    byAuthor := revertCommits.foldl (fun acc c => addPoints 1 acc c.author) []
    recentReverts := revertCommits.take 5 }

/-- `getHallOfShame(limit)` on the log text `log`. -/
def getHallOfShame (log : Str) (limit : Int) : List LeaderboardEntry :=
  sliceTo (getShameScores toLowerCase log).leaderboard limit

/-- The loop body of `getHallOfFame`.  For a key of `Object.prototype` the value of
`authorStats[c.author]` is an inherited object, which is truthy: no own property is created and
the increments land on that built-in object. -/
def countFame (stats : Obj AuthorStat) (c : Commit) : Obj AuthorStat :=
  match stats.getOwn c.author with
  | some s =>
    stats.setOwn c.author
      ⟨s.commits + 1, if isRevert toLowerCase c then s.reverts + 1 else s.reverts⟩
  | none =>
    if c.author ∈ objectPrototypeKeys then stats
    else stats.setOwn c.author ⟨1, if isRevert toLowerCase c then 1 else 0⟩

/-- `getHallOfFame(limit)` on the log text `log`. -/
def getHallOfFame (log : Str) (limit : Int) : List FameEntry :=
  let commits := parseCommits log
  let authorStats := commits.foldl (countFame toLowerCase) []
  let rows : List FameEntry := (Obj.entries authorStats).map
    (fun p => { author := p.1, commits := p.2.commits, reverts := p.2.reverts,
                quality := qualityOf p.2 })
  sliceTo ((rows.filter (fun s => decide (s.commits ≥ 5))).insertionSort fameOrder) limit

end Lower


/-! ## Logs used to evaluate the operations

Each is text that `git log --pretty=format:"%H|%an|%ae|%s"` prints for a repository whose
commits carry the author names shown. -/

/-- One commit, a revert, by an author named `constructor`. -/
def logConstructorRevert : Str :=
  "3f2a9c1e5b7d4a6081c2e3f4a5b6c7d8e9f0a1b2|constructor|dev@example.com|Revert \"bad change\"".toList

/-- The commit of `logConstructorRevert` followed by one commit of `bob` with subject
`fix: typo`. -/
def logConstructorAndBob : Str :=
  ("3f2a9c1e5b7d4a6081c2e3f4a5b6c7d8e9f0a1b2|constructor|dev@example.com|Revert \"bad change\"\n"
    ++ "7c0d1e2f3a4b5c6d7e8f9a0b1c2d3e4f5a6b7c8d|bob|bob@example.com|fix: typo").toList

/-- One commit, a revert, by an author named `__proto__`. -/
def logProtoRevert : Str :=
  "9e8d7c6b5a4f3e2d1c0b9a8f7e6d5c4b3a2f1e0d|__proto__|dev@example.com|Revert the merge".toList

/-- One commit that mentions `break`, by an author named `__proto__`. -/
def logProtoBreak : Str :=
  "1a2b3c4d5e6f7a8b9c0d1e2f3a4b5c6d7e8f9a0b|__proto__|dev@example.com|break the build".toList

/-- One commit with subject `hotfix: patch login`, by an author named `constructor`. -/
def logConstructorHotfix : Str :=
  "5b6c7d8e9f0a1b2c3d4e5f6a7b8c9d0e1f2a3b4c|constructor|dev@example.com|hotfix: patch login".toList

/-- Five commits of an author named `constructor`, none a revert, then five commits of `bob`,
one of them a revert. -/
def logConstructorAndBobFame : Str :=
  ("0a1b2c3d4e5f60718293a4b5c6d7e8f901234567|constructor|dev@example.com|add parser\n"
    ++ "1b2c3d4e5f60718293a4b5c6d7e8f90123456780|constructor|dev@example.com|add lexer\n"
    ++ "2c3d4e5f60718293a4b5c6d7e8f9012345678901|constructor|dev@example.com|add tests\n"
    ++ "3d4e5f60718293a4b5c6d7e8f901234567890122|constructor|dev@example.com|update docs\n"
    ++ "4e5f60718293a4b5c6d7e8f90123456789012343|constructor|dev@example.com|bump version\n"
    ++ "5f60718293a4b5c6d7e8f9012345678901234564|bob|bob@example.com|add cache\n"
    ++ "60718293a4b5c6d7e8f90123456789012345678a|bob|bob@example.com|Revert \"add cache\"\n"
    ++ "718293a4b5c6d7e8f90123456789012345678a9b|bob|bob@example.com|rename module\n"
    ++ "8293a4b5c6d7e8f90123456789012345678a9bc0|bob|bob@example.com|update readme\n"
    ++ "93a4b5c6d7e8f90123456789012345678a9bc0d1|bob|bob@example.com|tidy imports").toList

/-- The log of the example of the specification, with a `hotfix` among the four further
commits of `Alice`: none of their subjects contains `revert`. -/
def logAliceWithHotfix : Str :=
  ("abc123|Alice|a@x.com|Revert \"bad change\"\n"
    ++ "abc124|Alice|a@x.com|hotfix login\n"
    ++ "abc125|Alice|a@x.com|add tests\n"
    ++ "abc126|Alice|a@x.com|update docs\n"
    ++ "abc127|Alice|a@x.com|bump version").toList

/-- A log text of 101 lines, each the line of one commit. -/
def logOf101Lines : Str :=
  join ['\n'] (List.replicate 101
    "3f2a9c1e5b7d4a6081c2e3f4a5b6c7d8e9f0a1b2|Alice|a@x.com|add tests".toList)

/-- The log of the example of the specification: the revert of `Alice` on top, followed by one
line per further commit of `Alice`, each given by its hash, email and subject. -/
def aliceLog (further : List (Str × Str × Str)) : Str :=
  join ['\n'] ("abc123|Alice|a@x.com|Revert \"bad change\"".toList ::
    further.map (fun x => x.1 ++ ['|'] ++ "Alice".toList ++ ['|'] ++ x.2.1 ++ ['|'] ++ x.2.2))

/-! ## Facts about the string primitives -/

theorem split_ne_nil (sep : Char) (s : Str) : split sep s ≠ [] := by
  induction s with
  | nil => simp [split]
  | cons c cs ih =>
    unfold split
    split
    · simp
    · cases h : split sep cs with
      | nil => exact absurd h ih
      | cons p ps => simp

theorem split_of_not_mem (sep : Char) (s : Str) (h : sep ∉ s) : split sep s = [s] := by
  induction s with
  | nil => rfl
  | cons c cs ih =>
    have hc : c ≠ sep := fun e => h (by simp [e])
    have hcs : sep ∉ cs := fun e => h (by simp [e])
    simp [split, hc, ih hcs]

theorem split_append_sep (sep : Char) (p r : Str) (h : sep ∉ p) :
    split sep (p ++ sep :: r) = p :: split sep r := by
  induction p with
  | nil => simp [split]
  | cons c cs ih =>
    have hc : c ≠ sep := fun e => h (by simp [e])
    have hcs : sep ∉ cs := fun e => h (by simp [e])
    simp [split, hc, ih hcs]

theorem join_split (sep : Char) (s : Str) : join [sep] (split sep s) = s := by
  induction s with
  | nil => rfl
  | cons c cs ih =>
    unfold split
    split
    · next h =>
      subst h
      cases hs : split c cs with
      | nil => exact absurd hs (split_ne_nil _ _)
      | cons p ps => rw [hs] at ih; simp [join, ih]
    · cases hs : split sep cs with
      | nil => exact absurd hs (split_ne_nil _ _)
      | cons p ps =>
        rw [hs] at ih
        cases ps with
        | nil => simpa [join] using ih
        | cons q qs => simp only [join] at ih ⊢; simp [← ih]

theorem trim_eq_nil_iff (s : Str) : trim s = [] ↔ ∀ c ∈ s, isWhiteSpace c = true := by
  unfold trim
  rw [List.reverse_eq_nil_iff, List.dropWhile_eq_nil_iff]
  constructor
  · intro h
    have hd : s.dropWhile isWhiteSpace = [] := by
      by_contra hne
      have h1 := List.head_dropWhile_not isWhiteSpace s hne
      have h2 := h _ (List.mem_reverse.mpr (List.head_mem hne))
      simp [h2] at h1
    exact List.dropWhile_eq_nil_iff.mp hd
  · intro h c hc
    exact h c ((List.dropWhile_suffix _).subset (List.mem_reverse.mp hc))

/-- The test `s.includes(k)` holds exactly when `k` is a contiguous part of `s`. -/
theorem includes_iff_contiguous (s k : Str) : includes s k = true ↔ k <:+: s := by
  induction s with
  | nil => simp [includes, List.isEmpty_iff]
  | cons c cs ih =>
    rw [includes, Bool.or_eq_true, ih, List.infix_cons_iff, List.isPrefixOf_iff_prefix]

/-- A keyword in lower case that occurs in a message still occurs after the message is
lower-cased character by character. -/
theorem includes_toLowerASCII (m k : Str) (hk : toLowerASCII k = k)
    (h : includes m k = true) : includes (toLowerASCII m) k = true := by
  rw [includes_iff_contiguous] at h ⊢
  have := List.IsInfix.map Char.toLower h
  rw [← hk]
  exact this

theorem orElse_some (s d : Str) (h : s ≠ []) : orElse (some s) d = s := by
  cases s with
  | nil => exact absurd rfl h
  | cons c cs => rfl

theorem orElse_some_nil_default (s : Str) : orElse (some s) [] = s := by
  cases s <;> rfl


/-! ## Facts about objects used as maps -/

theorem Obj.getOwn_setOwn_self {α : Type} (o : Obj α) (k : Str) (v : α) :
    (o.setOwn k v).getOwn k = some v := by
  induction o with
  | nil => simp [Obj.setOwn, Obj.getOwn]
  | cons p rest ih =>
    obtain ⟨k', v'⟩ := p
    by_cases h : k' = k <;> simp [Obj.setOwn, Obj.getOwn, h, ih]

theorem Obj.getOwn_setOwn_of_ne {α : Type} (o : Obj α) (k a : Str) (v : α) (h : a ≠ k) :
    (o.setOwn k v).getOwn a = o.getOwn a := by
  induction o with
  | nil => simp [Obj.setOwn, Obj.getOwn, Ne.symm h]
  | cons p rest ih =>
    obtain ⟨k', v'⟩ := p
    by_cases hk : k' = k
    · subst hk
      simp [Obj.setOwn, Obj.getOwn, Ne.symm h]
    · by_cases ha : k' = a
      · subst ha
        simp only [Obj.setOwn, hk, if_false, Obj.getOwn, if_true]
      · simp only [Obj.setOwn, hk, if_false, Obj.getOwn, ha, ih]

theorem Obj.keys_setOwn {α : Type} (o : Obj α) (k : Str) (v : α) :
    (o.setOwn k v).map Prod.fst
      = if k ∈ o.map Prod.fst then o.map Prod.fst else o.map Prod.fst ++ [k] := by
  induction o with
  | nil => simp [Obj.setOwn]
  | cons p rest ih =>
    obtain ⟨k', v'⟩ := p
    by_cases hk : k' = k
    · subst hk
      simp only [Obj.setOwn, if_true, List.map_cons, List.mem_cons, true_or]
    · have hk' : ¬ k = k' := fun e => hk e.symm
      simp only [Obj.setOwn, hk, if_false, List.map_cons, ih, List.mem_cons, hk', false_or]
      split <;> rfl

theorem Obj.nodup_keys_setOwn {α : Type} (o : Obj α) (k : Str) (v : α)
    (h : (o.map Prod.fst).Nodup) : ((o.setOwn k v).map Prod.fst).Nodup := by
  rw [Obj.keys_setOwn]
  split
  · exact h
  · next hk =>
    rw [List.nodup_append]
    refine ⟨h, List.nodup_singleton k, ?_⟩
    intro x hx hx'
    simp only [List.mem_singleton] at hx'
    subst hx'
    exact hk hx

theorem Obj.mem_keys_setOwn {α : Type} (o : Obj α) (k a : Str) (v : α) :
    a ∈ (o.setOwn k v).map Prod.fst ↔ a ∈ o.map Prod.fst ∨ a = k := by
  rw [Obj.keys_setOwn]
  split
  · next hk =>
    constructor
    · exact Or.inl
    · rintro (h | rfl)
      · exact h
      · exact hk
  · simp only [List.mem_append, List.mem_singleton]

theorem Obj.getOwn_eq_none_iff {α : Type} (o : Obj α) (k : Str) :
    o.getOwn k = none ↔ k ∉ o.map Prod.fst := by
  induction o with
  | nil => simp [Obj.getOwn]
  | cons p rest ih =>
    obtain ⟨k', v'⟩ := p
    by_cases hk : k' = k
    · simp only [Obj.getOwn, hk, if_true, List.map_cons, List.mem_cons, true_or,
        not_true_eq_false, reduceCtorEq]
    · have hk' : ¬ k = k' := fun e => hk e.symm
      simp only [Obj.getOwn, hk, if_false, ih, List.map_cons, List.mem_cons, hk', false_or]

theorem Obj.mem_iff_getOwn {α : Type} (o : Obj α) (k : Str) (v : α)
    (h : (o.map Prod.fst).Nodup) : (k, v) ∈ o ↔ o.getOwn k = some v := by
  induction o with
  | nil => simp [Obj.getOwn]
  | cons p rest ih =>
    obtain ⟨k', v'⟩ := p
    simp only [List.map_cons, List.nodup_cons] at h
    by_cases hk : k' = k
    · subst hk
      simp only [List.mem_cons, Prod.mk.injEq, true_and, Obj.getOwn, if_true, Option.some.injEq]
      constructor
      · rintro (e | hm)
        · exact e.symm
        · exact absurd (List.mem_map.mpr ⟨(k', v), hm, rfl⟩) h.1
      · intro e
        exact Or.inl e.symm
    · have hk' : ¬ k = k' := fun e => hk e.symm
      simp only [List.mem_cons, Prod.mk.injEq, hk', false_and, false_or, ih h.2, Obj.getOwn, hk,
        if_false]

theorem Obj.entries_perm {α : Type} (o : Obj α) : (Obj.entries o).Perm o := by
  unfold Obj.entries
  refine ((List.perm_insertionSort _ _).append_right _).trans ?_
  have h := List.filter_append_perm (fun p : Str × α => (arrayIndex? p.1).isSome) o
  have e : (fun p : Str × α => (arrayIndex? p.1).isNone)
      = (fun p : Str × α => !((arrayIndex? p.1).isSome)) := by
    funext p
    cases arrayIndex? p.1 <;> rfl
  rw [e]
  simpa using h

theorem Obj.mem_of_getOwn {α : Type} (o : Obj α) (k : Str) (v : α)
    (h : o.getOwn k = some v) : (k, v) ∈ o := by
  induction o with
  | nil => simp [Obj.getOwn] at h
  | cons p rest ih =>
    obtain ⟨k', v'⟩ := p
    by_cases hk : k' = k
    · subst hk
      simp only [Obj.getOwn, if_true, Option.some.injEq] at h
      subst h
      exact List.mem_cons_self _ _
    · simp only [Obj.getOwn, hk, if_false] at h
      exact List.mem_cons_of_mem _ (ih h)

theorem Obj.mem_setOwn {α : Type} (o : Obj α) (k : Str) (v : α) (p : Str × α)
    (h : p ∈ o.setOwn k v) : p ∈ o ∨ p = (k, v) := by
  induction o with
  | nil =>
    simp only [Obj.setOwn, List.mem_singleton] at h
    exact Or.inr h
  | cons q rest ih =>
    obtain ⟨k', v'⟩ := q
    by_cases hk : k' = k
    · subst hk
      simp only [Obj.setOwn, if_true, List.mem_cons] at h
      rcases h with h | h
      · exact Or.inr h
      · exact Or.inl (List.mem_cons_of_mem _ h)
    · simp only [Obj.setOwn, hk, if_false, List.mem_cons] at h
      rcases h with h | h
      · exact Or.inl (h ▸ List.mem_cons_self _ _)
      · rcases ih h with h' | h'
        · exact Or.inl (List.mem_cons_of_mem _ h')
        · exact Or.inr h'

/-! ## Facts about `addPoints` -/

theorem proto_mem_objectPrototypeKeys : "__proto__".toList ∈ objectPrototypeKeys := by
  decide

theorem addPoints_getOwn_of_ne (pts : Nat) (o : Obj JsVal) (k a : Str) (h : a ≠ k) :
    (addPoints pts o k).getOwn a = o.getOwn a := by
  unfold addPoints
  split
  · exact Obj.getOwn_setOwn_of_ne _ _ _ _ h
  · exact Obj.getOwn_setOwn_of_ne _ _ _ _ h
  · split
    · rfl
    · split <;> exact Obj.getOwn_setOwn_of_ne _ _ _ _ h

theorem addPoints_getOwn_self (pts : Nat) (hp : 0 < pts) (o : Obj JsVal) (a : Str)
    (ha : a ∉ objectPrototypeKeys) (m : Nat)
    (h : o.getOwn a = if m = 0 then none else some (.num m)) :
    (addPoints pts o a).getOwn a = if m + pts = 0 then none else some (.num (m + pts)) := by
  have hne : m + pts ≠ 0 := by omega
  have hproto : a ≠ "__proto__".toList := fun e => ha (e ▸ proto_mem_objectPrototypeKeys)
  rw [if_neg hne]
  unfold addPoints
  by_cases hm : m = 0
  · subst hm
    simp only [if_true] at h
    simp only [h, if_neg hproto, if_neg ha, Nat.zero_add]
    exact Obj.getOwn_setOwn_self _ _ _
  · rw [if_neg hm] at h
    simp only [h]
    exact Obj.getOwn_setOwn_self _ _ _

theorem addPoints_nodup_keys (pts : Nat) (o : Obj JsVal) (k : Str)
    (h : (o.map Prod.fst).Nodup) : ((addPoints pts o k).map Prod.fst).Nodup := by
  unfold addPoints
  split
  · exact Obj.nodup_keys_setOwn _ _ _ h
  · exact Obj.nodup_keys_setOwn _ _ _ h
  · split
    · exact h
    · split <;> exact Obj.nodup_keys_setOwn _ _ _ h

theorem addPoints_mem_keys (pts : Nat) (o : Obj JsVal) (k a : Str)
    (h : a ∈ (addPoints pts o k).map Prod.fst) : a ∈ o.map Prod.fst ∨ a = k := by
  unfold addPoints at h
  split at h
  · exact (Obj.mem_keys_setOwn _ _ _ _).mp h
  · exact (Obj.mem_keys_setOwn _ _ _ _).mp h
  · split at h
    · exact Or.inl h
    · split at h <;> exact (Obj.mem_keys_setOwn _ _ _ _).mp h

theorem addPoints_all_num (pts : Nat) (o : Obj JsVal) (k : Str)
    (hk : k ∉ objectPrototypeKeys) (h : ∀ p ∈ o, ∃ n, p.2 = JsVal.num n) :
    ∀ p ∈ addPoints pts o k, ∃ n, p.2 = JsVal.num n := by
  have hproto : k ≠ "__proto__".toList := fun e => hk (e ▸ proto_mem_objectPrototypeKeys)
  intro p hp
  unfold addPoints at hp
  split at hp
  · rcases Obj.mem_setOwn _ _ _ _ hp with h' | h'
    · exact h p h'
    · exact ⟨_, by rw [h']⟩
  · next s hs =>
    obtain ⟨n, hn⟩ := h _ (Obj.mem_of_getOwn _ _ _ hs)
    simp at hn
  · rw [if_neg hproto, if_neg hk] at hp
    rcases Obj.mem_setOwn _ _ _ _ hp with h' | h'
    · exact h p h'
    · exact ⟨_, by rw [h']⟩

theorem nativeText_starts_with_function (k : Str) : "function ".toList <+: nativeText k := by
  unfold nativeText
  rw [List.append_assoc]
  exact List.prefix_append _ _

/-- Every string that `addPoints` stores starts with `function `; such a string is not a
numeral, so its conversion to a number is `NaN`. -/
theorem addPoints_str_starts_with_function (pts : Nat) (o : Obj JsVal) (k : Str)
    (h : ∀ p ∈ o, ∀ s, p.2 = JsVal.str s → "function ".toList <+: s) :
    ∀ p ∈ addPoints pts o k, ∀ s, p.2 = JsVal.str s → "function ".toList <+: s := by
  intro p hp s hs
  unfold addPoints at hp
  split at hp
  · rcases Obj.mem_setOwn _ _ _ _ hp with h' | h'
    · exact h p h' s hs
    · rw [h'] at hs
      simp at hs
  · next s' hs' =>
    have hpre := h _ (Obj.mem_of_getOwn _ _ _ hs') s' rfl
    rcases Obj.mem_setOwn _ _ _ _ hp with h' | h'
    · exact h p h' s hs
    · have hne : s' ≠ [] := by
        intro e
        rw [e] at hpre
        exact absurd (List.prefix_nil.mp hpre) (by decide)
      rw [h', if_neg hne] at hs
      simp only [JsVal.str.injEq] at hs
      rw [← hs]
      exact hpre.trans (List.prefix_append _ _)
  · split at hp
    · exact h p hp s hs
    · split at hp
      · rcases Obj.mem_setOwn _ _ _ _ hp with h' | h'
        · exact h p h' s hs
        · rw [h'] at hs
          simp only [JsVal.str.injEq] at hs
          rw [← hs]
          exact (nativeText_starts_with_function k).trans (List.prefix_append _ _)
      · rcases Obj.mem_setOwn _ _ _ _ hp with h' | h'
        · exact h p h' s hs
        · rw [h'] at hs
          simp at hs

theorem foldl_addPoints_str_starts_with_function (pts : Nat) (cs : List Commit) (o : Obj JsVal)
    (h : ∀ p ∈ o, ∀ s, p.2 = JsVal.str s → "function ".toList <+: s) :
    ∀ p ∈ cs.foldl (fun acc c => addPoints pts acc c.author) o,
      ∀ s, p.2 = JsVal.str s → "function ".toList <+: s := by
  induction cs generalizing o with
  | nil => exact h
  | cons c rest ih => exact ih _ (addPoints_str_starts_with_function _ _ _ h)

/-- The number of commits of `author` among `commits` is what the per-author counters
are compared with. -/
theorem countP_author_le (p : Commit → Bool) (a : Str) (commits : List Commit) :
    (commits.filter p).countP (fun c => decide (c.author = a))
      ≤ commits.countP (fun c => decide (c.author = a)) := by
  rw [List.countP_filter]
  apply List.countP_mono_left
  intro c _ h
  simp only [Bool.and_eq_true] at h
  exact h.1

theorem foldl_addPoints_getOwn (pts : Nat) (hp : 0 < pts) (a : Str)
    (ha : a ∉ objectPrototypeKeys) (cs : List Commit) (o : Obj JsVal) (m : Nat)
    (h : o.getOwn a = if m = 0 then none else some (.num m)) :
    (cs.foldl (fun acc c => addPoints pts acc c.author) o).getOwn a
      = if m + pts * cs.countP (fun c => decide (c.author = a)) = 0 then none
        else some (.num (m + pts * cs.countP (fun c => decide (c.author = a)))) := by
  induction cs generalizing o m with
  | nil => simpa using h
  | cons c rest ih =>
    simp only [List.foldl_cons, List.countP_cons]
    by_cases hc : c.author = a
    · have h1 := addPoints_getOwn_self pts hp o a ha m h
      have h2 := ih (addPoints pts o a) (m + pts) h1
      simp only [hc, decide_True, if_true]
      rw [h2]
      have e : m + pts + pts * List.countP (fun c => decide (c.author = a)) rest
          = m + pts * (List.countP (fun c => decide (c.author = a)) rest + 1) := by ring
      rw [e]
    · have h1 : (addPoints pts o c.author).getOwn a = if m = 0 then none else some (.num m) := by
        rw [addPoints_getOwn_of_ne _ _ _ _ (fun e => hc e.symm)]
        exact h
      have h2 := ih (addPoints pts o c.author) m h1
      simp only [hc, decide_False, Bool.false_eq_true, if_false, Nat.add_zero]
      exact h2

theorem foldl_addPoints_nodup_keys (pts : Nat) (cs : List Commit) (o : Obj JsVal)
    (h : (o.map Prod.fst).Nodup) :
    ((cs.foldl (fun acc c => addPoints pts acc c.author) o).map Prod.fst).Nodup := by
  induction cs generalizing o with
  | nil => exact h
  | cons c rest ih => exact ih _ (addPoints_nodup_keys _ _ _ h)

theorem foldl_addPoints_mem_keys (pts : Nat) (cs : List Commit) (o : Obj JsVal) (a : Str)
    (h : a ∈ (cs.foldl (fun acc c => addPoints pts acc c.author) o).map Prod.fst) :
    a ∈ o.map Prod.fst ∨ ∃ c ∈ cs, c.author = a := by
  induction cs generalizing o with
  | nil => exact Or.inl h
  | cons c rest ih =>
    rcases ih _ h with h' | ⟨d, hd, hda⟩
    · rcases addPoints_mem_keys _ _ _ _ h' with h'' | h''
      · exact Or.inl h''
      · exact Or.inr ⟨c, List.mem_cons_self _ _, h''.symm⟩
    · exact Or.inr ⟨d, List.mem_cons_of_mem _ hd, hda⟩

theorem foldl_addPoints_all_num (pts : Nat) (cs : List Commit) (o : Obj JsVal)
    (hcs : ∀ c ∈ cs, c.author ∉ objectPrototypeKeys)
    (h : ∀ p ∈ o, ∃ n, p.2 = JsVal.num n) :
    ∀ p ∈ cs.foldl (fun acc c => addPoints pts acc c.author) o, ∃ n, p.2 = JsVal.num n := by
  induction cs generalizing o with
  | nil => exact h
  | cons c rest ih =>
    exact ih _ (fun d hd => hcs d (List.mem_cons_of_mem _ hd))
      (addPoints_all_num _ _ _ (hcs c (List.mem_cons_self _ _)) h)

/-! ## Facts about the three loops of `getShameScores` -/

theorem touchDetail_scores (upd : Detail → Detail) (t : Tally) (a : Str) :
    (touchDetail upd t a).scores = t.scores := by
  unfold touchDetail
  split
  · rfl
  · split <;> rfl

theorem touchDetail_getOwn_of_ne (upd : Detail → Detail) (t : Tally) (k a : Str) (h : a ≠ k) :
    (touchDetail upd t k).details.getOwn a = t.details.getOwn a := by
  unfold touchDetail
  split
  · exact Obj.getOwn_setOwn_of_ne _ _ _ _ h
  · split
    · rfl
    · exact Obj.getOwn_setOwn_of_ne _ _ _ _ h

theorem touchDetail_getOwn_self (upd : Detail → Detail) (t : Tally) (a : Str)
    (ha : a ∉ objectPrototypeKeys) :
    (touchDetail upd t a).details.getOwn a
      = some (upd ((t.details.getOwn a).getD Detail.zero)) := by
  unfold touchDetail
  cases h : t.details.getOwn a with
  | none =>
    simp only [if_neg ha, Option.getD_none]
    exact Obj.getOwn_setOwn_self _ _ _
  | some d =>
    simp only [Option.getD_some]
    exact Obj.getOwn_setOwn_self _ _ _

theorem touchDetail_details_with_scores (upd : Detail → Detail) (t : Tally) (s : Obj JsVal)
    (a : Str) :
    (touchDetail upd { t with scores := s } a).details = (touchDetail upd t a).details := by
  unfold touchDetail
  cases t.details.getOwn a with
  | none => by_cases h : a ∈ objectPrototypeKeys <;> simp only [h, if_true, if_false]
  | some d => rfl

theorem foldl_countRevert_scores (cs : List Commit) (t : Tally) :
    (cs.foldl countRevert t).scores
      = cs.foldl (fun acc c => addPoints 10 acc c.author) t.scores := by
  induction cs generalizing t with
  | nil => rfl
  | cons c rest ih =>
    simp only [List.foldl_cons]
    rw [ih]
    simp only [countRevert, touchDetail_scores]

theorem foldl_countCIFailure_scores (cs : List Commit) (t : Tally) :
    (cs.foldl countCIFailure t).scores
      = cs.foldl (fun acc c => addPoints 5 acc c.author) t.scores := by
  induction cs generalizing t with
  | nil => rfl
  | cons c rest ih =>
    simp only [List.foldl_cons]
    rw [ih]
    simp only [countCIFailure, touchDetail_scores]

theorem foldl_countChange_scores (cs : List Commit) (t : Tally) :
    (cs.foldl countChange t).scores = t.scores := by
  induction cs generalizing t with
  | nil => rfl
  | cons c rest ih =>
    simp only [List.foldl_cons]
    rw [ih]
    simp only [countChange, touchDetail_scores]

/-- A loop whose body raises the counters of the commit's author by `dr`, `df`, `dn` raises
the counters of an author that is not a key of `Object.prototype` by that much per commit. -/
theorem foldl_details_getOwn (step : Tally → Commit → Tally) (upd : Detail → Detail)
    (a : Str) (ha : a ∉ objectPrototypeKeys) (dr df dn : Nat) (hpos : 0 < dr + df + dn)
    (hstep : ∀ t c, (step t c).details = (touchDetail upd t c.author).details)
    (hzero : upd Detail.zero = ⟨some (.int dr), some (.int df), some (.int dn)⟩)
    (hupd : ∀ r f n, upd ⟨some (.int r), some (.int f), some (.int n)⟩
      = ⟨some (.int (r + dr)), some (.int (f + df)), some (.int (n + dn))⟩)
    (cs : List Commit) (t : Tally) (r f n : Nat)
    (h : t.details.getOwn a
      = if r + f + n = 0 then none else some ⟨some (.int r), some (.int f), some (.int n)⟩) :
    (cs.foldl step t).details.getOwn a
      = if r + dr * cs.countP (fun c => decide (c.author = a))
            + (f + df * cs.countP (fun c => decide (c.author = a)))
            + (n + dn * cs.countP (fun c => decide (c.author = a))) = 0 then none
        else some ⟨some (.int (r + dr * cs.countP (fun c => decide (c.author = a)))),
          some (.int (f + df * cs.countP (fun c => decide (c.author = a)))),
          some (.int (n + dn * cs.countP (fun c => decide (c.author = a))))⟩ := by
  induction cs generalizing t r f n with
  | nil => simpa using h
  | cons c rest ih =>
    simp only [List.foldl_cons, List.countP_cons]
    by_cases hc : c.author = a
    · have h1 : (step t c).details.getOwn a
          = if (r + dr) + (f + df) + (n + dn) = 0 then none
            else some ⟨some (.int (r + dr)), some (.int (f + df)), some (.int (n + dn))⟩ := by
        have hne : (r + dr) + (f + df) + (n + dn) ≠ 0 := by omega
        rw [if_neg hne, hstep, hc, touchDetail_getOwn_self _ _ _ ha, h]
        by_cases h0 : r + f + n = 0
        · have hr : r = 0 := by omega
          have hf : f = 0 := by omega
          have hn : n = 0 := by omega
          subst hr hf hn
          simp only [if_true, Option.getD_none, hzero, Nat.zero_add]
        · simp only [if_neg h0, Option.getD_some, hupd]
      have h2 := ih (step t c) (r + dr) (f + df) (n + dn) h1
      simp only [hc, decide_True, if_true]
      rw [h2]
      have e : ∀ x d k : Nat, x + d + d * k = x + d * (k + 1) := fun x d k => by ring
      simp only [e]
    · have h1 : (step t c).details.getOwn a
          = if r + f + n = 0 then none
            else some ⟨some (.int r), some (.int f), some (.int n)⟩ := by
        rw [hstep, touchDetail_getOwn_of_ne _ _ _ _ (fun e => hc e.symm)]
        exact h
      have h2 := ih (step t c) r f n h1
      simp only [hc, decide_False, Bool.false_eq_true, if_false, Nat.add_zero]
      exact h2

section TallyFacts

variable (toLowerCase : Str → Str)

theorem tally_scores (commits : List Commit) :
    (tally toLowerCase commits).scores
      = (commits.filter (isCIFailure toLowerCase)).foldl
          (fun acc c => addPoints 5 acc c.author)
          ((commits.filter (isRevertLike toLowerCase)).foldl
            (fun acc c => addPoints 10 acc c.author) []) := by
  simp only [tally, foldl_countChange_scores, foldl_countCIFailure_scores,
    foldl_countRevert_scores]

/-- The score stored for an author that is not a key of `Object.prototype`. -/
theorem tally_scores_getOwn (commits : List Commit) (a : Str) (ha : a ∉ objectPrototypeKeys) :
    (tally toLowerCase commits).scores.getOwn a
      = if 10 * commits.countP (fun c => decide (c.author = a) && isRevertLike toLowerCase c)
            + 5 * commits.countP (fun c => decide (c.author = a) && isCIFailure toLowerCase c) = 0
        then none
        else some (.num
          (10 * commits.countP (fun c => decide (c.author = a) && isRevertLike toLowerCase c)
            + 5 * commits.countP (fun c => decide (c.author = a) && isCIFailure toLowerCase c)))
    := by
  rw [tally_scores]
  have h1 := foldl_addPoints_getOwn 10 (by decide) a ha
    (commits.filter (isRevertLike toLowerCase)) [] 0 (by simp [Obj.getOwn])
  have h2 := foldl_addPoints_getOwn 5 (by decide) a ha
    (commits.filter (isCIFailure toLowerCase)) _ _ h1
  rw [h2]
  simp only [List.countP_filter, Nat.zero_add]

theorem tally_scores_nodup (commits : List Commit) :
    ((tally toLowerCase commits).scores.map Prod.fst).Nodup := by
  rw [tally_scores]
  exact foldl_addPoints_nodup_keys _ _ _ (foldl_addPoints_nodup_keys _ _ _ List.nodup_nil)

theorem tally_scores_mem_keys (commits : List Commit) (a : Str)
    (h : a ∈ (tally toLowerCase commits).scores.map Prod.fst) :
    ∃ c ∈ commits, c.author = a ∧
      (isRevertLike toLowerCase c = true ∨ isCIFailure toLowerCase c = true) := by
  rw [tally_scores] at h
  rcases foldl_addPoints_mem_keys _ _ _ _ h with h' | ⟨c, hc, hca⟩
  · rcases foldl_addPoints_mem_keys _ _ _ _ h' with h'' | ⟨c, hc, hca⟩
    · simp at h''
    · exact ⟨c, (List.mem_filter.mp hc).1, hca, Or.inl (List.mem_filter.mp hc).2⟩
  · exact ⟨c, (List.mem_filter.mp hc).1, hca, Or.inr (List.mem_filter.mp hc).2⟩

theorem tally_scores_all_num (commits : List Commit)
    (h : ∀ c ∈ commits, c.author ∉ objectPrototypeKeys) :
    ∀ p ∈ (tally toLowerCase commits).scores, ∃ n, p.2 = JsVal.num n := by
  rw [tally_scores]
  apply foldl_addPoints_all_num
  · exact fun c hc => h c (List.mem_filter.mp hc).1
  · apply foldl_addPoints_all_num
    · exact fun c hc => h c (List.mem_filter.mp hc).1
    · simp

/-- A score that is a string starts with `function `, for every log. -/
theorem tally_scores_str_starts_with_function (commits : List Commit) :
    ∀ p ∈ (tally toLowerCase commits).scores,
      ∀ s, p.2 = JsVal.str s → "function ".toList <+: s := by
  rw [tally_scores]
  apply foldl_addPoints_str_starts_with_function
  apply foldl_addPoints_str_starts_with_function
  simp

/-- The counters stored for an author that is not a key of `Object.prototype`. -/
theorem tally_details_getOwn (commits : List Commit) (a : Str) (ha : a ∉ objectPrototypeKeys) :
    (tally toLowerCase commits).details.getOwn a
      = if commits.countP (fun c => decide (c.author = a)) = 0 then none
        else some
          ⟨some (.int
              (commits.countP (fun c => decide (c.author = a) && isRevertLike toLowerCase c))),
            some (.int
              (commits.countP (fun c => decide (c.author = a) && isCIFailure toLowerCase c))),
            some (.int (commits.countP (fun c => decide (c.author = a))))⟩ := by
  have h1 := foldl_details_getOwn countRevert
    (fun d => { d with reverts := increment d.reverts }) a ha 1 0 0 (by decide)
    (fun t c => touchDetail_details_with_scores _ _ _ _) rfl (fun r f n => rfl)
    (commits.filter (isRevertLike toLowerCase)) ⟨[], [], []⟩ 0 0 0 (by simp [Obj.getOwn])
  have h2 := foldl_details_getOwn countCIFailure
    (fun d => { d with fixes := increment d.fixes }) a ha 0 1 0 (by decide)
    (fun t c => touchDetail_details_with_scores _ _ _ _) rfl (fun r f n => rfl)
    (commits.filter (isCIFailure toLowerCase)) _ _ _ _ h1
  have h3 := foldl_details_getOwn countChange
    (fun d => { d with changes := increment d.changes }) a ha 0 0 1 (by decide)
    (fun t c => rfl) rfl (fun r f n => rfl)
    commits _ _ _ _ h2
  have hR := countP_author_le (isRevertLike toLowerCase) a commits
  have hC := countP_author_le (isCIFailure toLowerCase) a commits
  simp only [tally]
  rw [h3]
  simp only [List.countP_filter, Nat.zero_add, Nat.zero_mul, Nat.add_zero, Nat.one_mul] at hR hC ⊢
  by_cases hN : commits.countP (fun c => decide (c.author = a)) = 0
  · have e1 : commits.countP (fun c => decide (c.author = a) && isRevertLike toLowerCase c) = 0 := by
      omega
    have e2 : commits.countP (fun c => decide (c.author = a) && isCIFailure toLowerCase c) = 0 := by
      omega
    simp only [hN, e1, e2, Nat.add_zero, if_true]
  · have hne : ¬ (commits.countP (fun c => decide (c.author = a) && isRevertLike toLowerCase c)
        + commits.countP (fun c => decide (c.author = a) && isCIFailure toLowerCase c)
        + commits.countP (fun c => decide (c.author = a)) = 0) := by omega
    rw [if_neg hne, if_neg hN]

end TallyFacts

/-! ## Facts about the leaderboard -/

theorem scoreOrder_num (a b : Str) (n m : Nat) :
    scoreOrder (a, JsVal.num n) (b, JsVal.num m) ↔ m ≤ n := Iff.rfl

theorem scoreOrder_of_num (x y : Str × JsVal) (n m : Nat)
    (hx : x.2 = JsVal.num n) (hy : y.2 = JsVal.num m) : scoreOrder x y ↔ m ≤ n := by
  obtain ⟨xa, xv⟩ := x
  obtain ⟨ya, yv⟩ := y
  simp only at hx hy
  subst hx hy
  exact Iff.rfl

theorem orderedInsert_scoreOrder_sorted (x : Str × JsVal) (l : List (Str × JsVal))
    (hx : ∃ n, x.2 = JsVal.num n) (hl : ∀ p ∈ l, ∃ n, p.2 = JsVal.num n)
    (hs : l.Pairwise scoreOrder) : (l.orderedInsert scoreOrder x).Pairwise scoreOrder := by
  induction l with
  | nil => simp
  | cons y rest ih =>
    obtain ⟨xa, xv⟩ := x
    obtain ⟨ya, yv⟩ := y
    obtain ⟨n, hn⟩ := hx
    obtain ⟨m, hm⟩ := hl (ya, yv) (List.mem_cons_self _ _)
    simp only at hn hm
    subst hn hm
    have hrest : ∀ p ∈ rest, ∃ n, p.2 = JsVal.num n :=
      fun p hp => hl p (List.mem_cons_of_mem _ hp)
    rw [List.pairwise_cons] at hs
    simp only [List.orderedInsert]
    split
    · next hxy =>
      rw [List.pairwise_cons]
      refine ⟨?_, List.pairwise_cons.mpr hs⟩
      intro p hp
      rcases List.mem_cons.mp hp with rfl | hp
      · exact hxy
      · obtain ⟨pa, pv⟩ := p
        obtain ⟨k, hk⟩ := hrest _ hp
        simp only at hk
        subst hk
        have h1 := hs.1 _ hp
        rw [scoreOrder_num] at h1 hxy ⊢
        omega
    · next hxy =>
      rw [List.pairwise_cons]
      refine ⟨?_, ih hrest hs.2⟩
      intro p hp
      rcases List.mem_cons.mp ((List.perm_orderedInsert _ _ _).mem_iff.mp hp) with rfl | hp
      · rw [scoreOrder_num] at hxy ⊢
        omega
      · exact hs.1 _ hp

theorem insertionSort_scoreOrder_sorted (l : List (Str × JsVal))
    (hl : ∀ p ∈ l, ∃ n, p.2 = JsVal.num n) : (l.insertionSort scoreOrder).Pairwise scoreOrder := by
  induction l with
  | nil => simp
  | cons x rest ih =>
    simp only [List.insertionSort]
    apply orderedInsert_scoreOrder_sorted
    · exact hl x (List.mem_cons_self _ _)
    · intro p hp
      exact hl p (List.mem_cons_of_mem _ ((List.mem_insertionSort _).mp hp))
    · exact ih (fun p hp => hl p (List.mem_cons_of_mem _ hp))

section LeaderboardFacts

variable (toLowerCase : Str → Str)

theorem mem_sorted_rows (commits : List Commit) (p : Str × JsVal) :
    p ∈ (Obj.entries (tally toLowerCase commits).scores).insertionSort scoreOrder
      ↔ p ∈ (tally toLowerCase commits).scores := by
  rw [List.mem_insertionSort]
  exact (Obj.entries_perm _).mem_iff

theorem sorted_rows_perm (commits : List Commit) :
    ((Obj.entries (tally toLowerCase commits).scores).insertionSort scoreOrder).Perm
      (tally toLowerCase commits).scores :=
  (List.perm_insertionSort _ _).trans (Obj.entries_perm _)

theorem leaderboard_row (log : Str) (e : LeaderboardEntry)
    (he : e ∈ (getShameScores toLowerCase log).leaderboard) :
    ∃ i, ∃ row, row ∈ (tally toLowerCase (parseCommits log)).scores ∧
      makeEntry (tally toLowerCase (parseCommits log)) i row = e := by
  simp only [getShameScores, List.mem_mapIdx] at he
  obtain ⟨i, h, rfl⟩ := he
  exact ⟨i, _, (mem_sorted_rows toLowerCase _ _).mp (List.getElem_mem _), rfl⟩

theorem leaderboard_of_row (log : Str) (row : Str × JsVal)
    (hrow : row ∈ (tally toLowerCase (parseCommits log)).scores) :
    ∃ i, makeEntry (tally toLowerCase (parseCommits log)) i row
      ∈ (getShameScores toLowerCase log).leaderboard := by
  obtain ⟨j, hj, hjrow⟩ := List.mem_iff_getElem.mp ((mem_sorted_rows toLowerCase _ _).mpr hrow)
  refine ⟨j, ?_⟩
  simp only [getShameScores, List.mem_mapIdx]
  exact ⟨j, hj, by rw [hjrow]⟩

theorem leaderboard_length (log : Str) :
    (getShameScores toLowerCase log).leaderboard.length
      = (tally toLowerCase (parseCommits log)).scores.length := by
  simp only [getShameScores, List.length_mapIdx]
  exact (sorted_rows_perm toLowerCase _).length_eq

theorem leaderboard_getElem (log : Str) (i : Nat)
    (h : i < (getShameScores toLowerCase log).leaderboard.length) :
    ∃ h' : i < ((Obj.entries (tally toLowerCase (parseCommits log)).scores).insertionSort
        scoreOrder).length,
      (getShameScores toLowerCase log).leaderboard[i]
        = makeEntry (tally toLowerCase (parseCommits log)) i
            (((Obj.entries (tally toLowerCase (parseCommits log)).scores).insertionSort
              scoreOrder)[i]) := by
  have h' : i < ((Obj.entries (tally toLowerCase (parseCommits log)).scores).insertionSort
      scoreOrder).length := by
    simpa only [getShameScores, List.length_mapIdx] using h
  refine ⟨h', ?_⟩
  simp only [getShameScores, List.getElem_mapIdx]

/-- The rank of a row is its position plus one: this holds for every log. -/
theorem leaderboard_rank (log : Str) (i : Nat)
    (h : i < (getShameScores toLowerCase log).leaderboard.length) :
    ((getShameScores toLowerCase log).leaderboard[i]).rank = i + 1 := by
  obtain ⟨h', e⟩ := leaderboard_getElem toLowerCase log i h
  rw [e]
  rfl

/-- No author has two rows. -/
theorem leaderboard_authors_nodup (log : Str) :
    ((getShameScores toLowerCase log).leaderboard.map (fun e => e.author)).Nodup := by
  have e : (getShameScores toLowerCase log).leaderboard.map (fun e => e.author)
      = ((Obj.entries (tally toLowerCase (parseCommits log)).scores).insertionSort
          scoreOrder).map Prod.fst := by
    apply List.ext_getElem
    · simp only [getShameScores, List.length_map, List.length_mapIdx]
    · intro i h1 h2
      simp only [getShameScores, List.getElem_map, List.getElem_mapIdx, makeEntry]
  rw [e]
  exact (((sorted_rows_perm toLowerCase _).map Prod.fst).nodup_iff).mpr
    (tally_scores_nodup toLowerCase _)

/-- Rows of authors that are not keys of `Object.prototype`: the score is ten points per
revert-like commit plus five per CI-failure-like commit, and the three counters are the numbers
of the author's revert-like commits, CI-failure-like commits and commits. -/
theorem leaderboard_entry_of_plain_author (log : Str) (e : LeaderboardEntry)
    (he : e ∈ (getShameScores toLowerCase log).leaderboard)
    (ha : e.author ∉ objectPrototypeKeys) :
    e.score = .num
      (10 * (parseCommits log).countP
          (fun c => decide (c.author = e.author) && isRevertLike toLowerCase c)
        + 5 * (parseCommits log).countP
          (fun c => decide (c.author = e.author) && isCIFailure toLowerCase c)) ∧
    e.reverts = some (.int ((parseCommits log).countP
      (fun c => decide (c.author = e.author) && isRevertLike toLowerCase c))) ∧
    e.fixes = some (.int ((parseCommits log).countP
      (fun c => decide (c.author = e.author) && isCIFailure toLowerCase c))) ∧
    e.changes = some (.int ((parseCommits log).countP
      (fun c => decide (c.author = e.author)))) := by
  obtain ⟨i, row, hrow, rfl⟩ := leaderboard_row toLowerCase log e he
  obtain ⟨a, v⟩ := row
  simp only [makeEntry] at ha ⊢
  have hget := (Obj.mem_iff_getOwn _ a v (tally_scores_nodup toLowerCase _)).mp hrow
  rw [tally_scores_getOwn toLowerCase _ a ha] at hget
  have hR : (parseCommits log).countP
      (fun c => decide (c.author = a) && isRevertLike toLowerCase c)
      ≤ (parseCommits log).countP (fun c => decide (c.author = a)) := by
    apply List.countP_mono_left
    intro c _ h
    simp only [Bool.and_eq_true] at h
    exact h.1
  have hC : (parseCommits log).countP
      (fun c => decide (c.author = a) && isCIFailure toLowerCase c)
      ≤ (parseCommits log).countP (fun c => decide (c.author = a)) := by
    apply List.countP_mono_left
    intro c _ h
    simp only [Bool.and_eq_true] at h
    exact h.1
  split at hget
  · exact absurd hget (by simp)
  · next hne =>
    have hN : (parseCommits log).countP (fun c => decide (c.author = a)) ≠ 0 := by omega
    have hd := tally_details_getOwn toLowerCase (parseCommits log) a ha
    rw [if_neg hN] at hd
    simp only [Option.some.injEq] at hget
    refine ⟨hget.symm, ?_, ?_, ?_⟩ <;> simp only [spreadDetail, hd]

/-- Every author with a row has a commit that is revert-like or CI-failure-like: this holds for
every log and every author. -/
theorem leaderboard_author_has_match (log : Str) (a : Str)
    (h : ∃ e ∈ (getShameScores toLowerCase log).leaderboard, e.author = a) :
    ∃ c ∈ parseCommits log, c.author = a ∧
      (isRevertLike toLowerCase c = true ∨ isCIFailure toLowerCase c = true) := by
  obtain ⟨e, he, hea⟩ := h
  obtain ⟨i, row, hrow, rfl⟩ := leaderboard_row toLowerCase log e he
  apply tally_scores_mem_keys toLowerCase
  simp only [makeEntry] at hea
  exact List.mem_map.mpr ⟨row, hrow, hea⟩

/-- An author that is not a key of `Object.prototype` and has a revert-like or CI-failure-like
commit has a row. -/
theorem leaderboard_has_plain_author (log : Str) (a : Str) (ha : a ∉ objectPrototypeKeys)
    (h : ∃ c ∈ parseCommits log, c.author = a ∧
      (isRevertLike toLowerCase c = true ∨ isCIFailure toLowerCase c = true)) :
    ∃ e ∈ (getShameScores toLowerCase log).leaderboard, e.author = a := by
  obtain ⟨c, hc, hca, hm⟩ := h
  have hget := tally_scores_getOwn toLowerCase (parseCommits log) a ha
  have hpos : 0 < (parseCommits log).countP
        (fun c => decide (c.author = a) && isRevertLike toLowerCase c)
      + (parseCommits log).countP
        (fun c => decide (c.author = a) && isCIFailure toLowerCase c) := by
    rcases hm with hm | hm
    · have : 0 < (parseCommits log).countP
          (fun c => decide (c.author = a) && isRevertLike toLowerCase c) :=
        List.countP_pos_iff.mpr ⟨c, hc, by simp [hca, hm]⟩
      omega
    · have : 0 < (parseCommits log).countP
          (fun c => decide (c.author = a) && isCIFailure toLowerCase c) :=
        List.countP_pos_iff.mpr ⟨c, hc, by simp [hca, hm]⟩
      omega
  rw [if_neg (by omega)] at hget
  obtain ⟨i, hi⟩ := leaderboard_of_row toLowerCase log _ (Obj.mem_of_getOwn _ _ _ hget)
  exact ⟨_, hi, rfl⟩

/-- When no commit author is a key of `Object.prototype`, every score is a number and the rows
are in non-increasing order of score. -/
theorem leaderboard_sorted_of_plain_authors (log : Str)
    (h : ∀ c ∈ parseCommits log, c.author ∉ objectPrototypeKeys) :
    (getShameScores toLowerCase log).leaderboard.Pairwise
      (fun e e' => ∃ n m, e.score = .num n ∧ e'.score = .num m ∧ m ≤ n) := by
  have hnum := tally_scores_all_num toLowerCase (parseCommits log) h
  have hsorted := insertionSort_scoreOrder_sorted
    (Obj.entries (tally toLowerCase (parseCommits log)).scores)
    (fun p hp => hnum p ((Obj.entries_perm _).mem_iff.mp hp))
  rw [List.pairwise_iff_getElem] at hsorted ⊢
  intro i j hi hj hij
  obtain ⟨hi', ei⟩ := leaderboard_getElem toLowerCase log i hi
  obtain ⟨hj', ej⟩ := leaderboard_getElem toLowerCase log j hj
  rw [ei, ej]
  have hs := hsorted i j hi' hj' hij
  obtain ⟨n, hn⟩ := hnum _ ((mem_sorted_rows toLowerCase _ _).mp (List.getElem_mem hi'))
  obtain ⟨m, hm⟩ := hnum _ ((mem_sorted_rows toLowerCase _ _).mp (List.getElem_mem hj'))
  refine ⟨n, m, hn, hm, ?_⟩
  exact (scoreOrder_of_num _ _ n m hn hm).mp hs

end LeaderboardFacts

/-! ## Facts about `getCIFailureStats` -/

theorem foldl_ite_eq_foldl_filter {σ : Type} (p : Commit → Bool) (f : σ → Commit → σ)
    (cs : List Commit) (s : σ) :
    cs.foldl (fun acc c => if p c then f acc c else acc) s = (cs.filter p).foldl f s := by
  induction cs generalizing s with
  | nil => rfl
  | cons c rest ih =>
    by_cases h : p c = true
    · simp only [List.foldl_cons, h, if_true, List.filter_cons, ih]
    · simp only [List.foldl_cons, h, if_false, List.filter_cons, ih, Bool.false_eq_true]

theorem countP_eq_add_of_split {α : Type} (p q r : α → Bool) (l : List α)
    (h : ∀ x, p x = (q x || r x)) (hd : ∀ x, ¬ (q x = true ∧ r x = true)) :
    l.countP p = l.countP q + l.countP r := by
  induction l with
  | nil => rfl
  | cons x rest ih =>
    have hx := h x
    have hdx := hd x
    simp only [List.countP_cons, ih, hx]
    cases hq : q x <;> cases hr : r x <;> simp [hq, hr] at hdx ⊢ <;> omega

theorem sumCounts_setOwn_of_none (o : Obj JsVal) (k : Str) (n : Nat)
    (h : o.getOwn k = none) : sumCounts (o.setOwn k (.num n)) = sumCounts o + n := by
  induction o with
  | nil => simp [Obj.setOwn, sumCounts]
  | cons p rest ih =>
    obtain ⟨k', v'⟩ := p
    by_cases hk : k' = k
    · simp [Obj.getOwn, hk] at h
    · simp only [Obj.getOwn, hk, if_false] at h
      have := ih h
      simp only [sumCounts, Obj.setOwn, hk, if_false, List.map_cons, List.sum_cons] at this ⊢
      omega

theorem sumCounts_setOwn_of_some (o : Obj JsVal) (k : Str) (n m : Nat)
    (h : o.getOwn k = some (.num m)) :
    sumCounts (o.setOwn k (.num n)) + m = sumCounts o + n := by
  induction o with
  | nil => simp [Obj.getOwn] at h
  | cons p rest ih =>
    obtain ⟨k', v'⟩ := p
    by_cases hk : k' = k
    · simp only [Obj.getOwn, hk, if_true, Option.some.injEq] at h
      subst h
      simp only [sumCounts, Obj.setOwn, hk, if_true, List.map_cons, List.sum_cons]
      omega
    · simp only [Obj.getOwn, hk, if_false] at h
      have := ih h
      simp only [sumCounts, Obj.setOwn, hk, if_false, List.map_cons, List.sum_cons] at this ⊢
      omega

theorem sumCounts_addPoints (pts : Nat) (o : Obj JsVal) (k : Str)
    (hk : k ∉ objectPrototypeKeys) (h : ∀ p ∈ o, ∃ n, p.2 = JsVal.num n) :
    sumCounts (addPoints pts o k) = sumCounts o + pts := by
  have hproto : k ≠ "__proto__".toList := fun e => hk (e ▸ proto_mem_objectPrototypeKeys)
  unfold addPoints
  split
  · next n hn =>
    have := sumCounts_setOwn_of_some o k (n + pts) n hn
    omega
  · next s hs =>
    obtain ⟨n, hn⟩ := h _ (Obj.mem_of_getOwn _ _ _ hs)
    simp at hn
  · next hn =>
    rw [if_neg hproto, if_neg hk]
    exact sumCounts_setOwn_of_none o k pts hn

theorem sumCounts_foldl_addPoints (pts : Nat) (cs : List Commit) (o : Obj JsVal)
    (hcs : ∀ c ∈ cs, c.author ∉ objectPrototypeKeys)
    (h : ∀ p ∈ o, ∃ n, p.2 = JsVal.num n) :
    sumCounts (cs.foldl (fun acc c => addPoints pts acc c.author) o)
      = sumCounts o + pts * cs.length := by
  induction cs generalizing o with
  | nil => simp
  | cons c rest ih =>
    simp only [List.foldl_cons, List.length_cons]
    rw [ih _ (fun d hd => hcs d (List.mem_cons_of_mem _ hd))
      (addPoints_all_num _ _ _ (hcs c (List.mem_cons_self _ _)) h),
      sumCounts_addPoints _ _ _ (hcs c (List.mem_cons_self _ _)) h]
    ring

section CIFailureFacts

variable (toLowerCase : Str → Str)

theorem getCIFailureStats_byAuthor (log : Str) :
    (getCIFailureStats toLowerCase log).byAuthor
      = ((parseCommits log).filter (countsForAuthor toLowerCase)).foldl
          (fun acc c => addPoints 1 acc c.author) [] := by
  simp only [getCIFailureStats]
  exact foldl_ite_eq_foldl_filter _ _ _ _

/-- The tally of an author that is not a key of `Object.prototype` is the number of that
author's commits whose message contains `break` or `emergency`; the author has no property
when there is no such commit. -/
theorem ciFailureStats_byAuthor_of_plain_author (log : Str) (a : Str)
    (ha : a ∉ objectPrototypeKeys) :
    (getCIFailureStats toLowerCase log).byAuthor.getOwn a
      = if (parseCommits log).countP
            (fun c => decide (c.author = a) && countsForAuthor toLowerCase c) = 0 then none
        else some (.num ((parseCommits log).countP
            (fun c => decide (c.author = a) && countsForAuthor toLowerCase c))) := by
  rw [getCIFailureStats_byAuthor]
  have h := foldl_addPoints_getOwn 1 (by decide) a ha
    ((parseCommits log).filter (countsForAuthor toLowerCase)) [] 0 (by simp [Obj.getOwn])
  rw [h]
  simp only [List.countP_filter, Nat.zero_add, Nat.one_mul]

/-- When no commit author is a key of `Object.prototype`, `totalBreaking` exceeds the sum of
the per-author tallies by the number of commits that mention `hotfix` or `rollback` but neither
`break` nor `emergency`. -/
theorem ciFailureStats_difference_of_plain_authors (log : Str)
    (h : ∀ c ∈ parseCommits log, c.author ∉ objectPrototypeKeys) :
    (getCIFailureStats toLowerCase log).totalBreaking
      = sumCounts (getCIFailureStats toLowerCase log).byAuthor
        + (parseCommits log).countP (fun c =>
            (includes (toLowerCase c.message) "hotfix".toList ||
              includes (toLowerCase c.message) "rollback".toList) &&
            !(includes (toLowerCase c.message) "break".toList ||
              includes (toLowerCase c.message) "emergency".toList)) := by
  rw [getCIFailureStats_byAuthor,
    sumCounts_foldl_addPoints 1 _ [] (fun c hc => h c (List.mem_filter.mp hc).1) (by simp)]
  simp only [getCIFailureStats, sumCounts, List.map_nil, List.sum_nil, Nat.zero_add, Nat.one_mul,
    ← List.countP_eq_length_filter]
  apply countP_eq_add_of_split
  · intro c
    have e : ∀ a b x y : Bool, (a || b || x || y) = ((a || b) || ((x || y) && !(a || b))) := by
      decide
    exact e _ _ _ _
  · intro c hc
    have e : ∀ a b x y : Bool, ¬ ((a || b) = true ∧ ((x || y) && !(a || b)) = true) := by
      decide
    exact e _ _ _ _ hc

end CIFailureFacts

theorem streakLoop_le (lower : Str → Str) (cs : List Commit) (n : Nat) :
    n ≤ streakLoop lower cs n ∧ streakLoop lower cs n ≤ n + cs.length := by
  induction cs generalizing n with
  | nil => simp [streakLoop]
  | cons c rest ih =>
    unfold streakLoop
    split
    · simp
    · have := ih (n + 1)
      simp only [List.length_cons]
      omega

theorem streakLoop_spec (lower : Str → Str) (cs : List Commit) (n : Nat) :
    (∀ c ∈ cs.take (streakLoop lower cs n - n), breaksStreak lower c = false) ∧
    (streakLoop lower cs n - n = cs.length ∨
      ∃ c, cs.get? (streakLoop lower cs n - n) = some c ∧ breaksStreak lower c = true) := by
  induction cs generalizing n with
  | nil => simp [streakLoop]
  | cons c rest ih =>
    unfold streakLoop
    split
    · next hb => simp [hb]
    · next hb =>
      have hle := (streakLoop_le lower rest (n + 1)).1
      obtain ⟨h1, h2⟩ := ih (n + 1)
      have e : streakLoop lower rest (n + 1) - n = (streakLoop lower rest (n + 1) - (n + 1)) + 1 := by
        omega
      rw [e]
      constructor
      · intro x hx
        simp only [List.take_succ_cons, List.mem_cons] at hx
        rcases hx with rfl | hx
        · simpa using hb
        · exact h1 x hx
      · rcases h2 with h2 | ⟨x, hx, hbx⟩
        · left; simp [h2]
        · right; exact ⟨x, by simpa using hx, hbx⟩

theorem streakLoop_all_clean (lower : Str → Str) (cs : List Commit) (n : Nat)
    (h : ∀ c ∈ cs, breaksStreak lower c = false) : streakLoop lower cs n = n + cs.length := by
  induction cs generalizing n with
  | nil => simp [streakLoop]
  | cons c rest ih =>
    have hc := h c (by simp)
    simp only [streakLoop, hc, Bool.false_eq_true, if_false, List.length_cons]
    rw [ih (n + 1) (fun x hx => h x (by simp [hx]))]
    omega

section Claims

variable (toLowerCase : Str → Str)

/-- C1 (code defect): on `logConstructorRevert` the author `constructor` has one revert-like
commit and no CI-failure-like commit, and the row of that author carries as score the string
`function Object() { [native code] }10`, not the number 10: `scores["constructor"]` is the
inherited function `Object`, which is truthy, and `+` concatenates. -/
theorem getShameScores_constructor_score :
    (parseCommits logConstructorRevert).countP
        (fun c => decide (c.author = "constructor".toList) && isRevertLike toLowerASCII c) = 1 ∧
    (parseCommits logConstructorRevert).countP
        (fun c => decide (c.author = "constructor".toList) && isCIFailure toLowerASCII c) = 0 ∧
    (getShameScores toLowerASCII logConstructorRevert).leaderboard.map
        (fun e => (e.author, e.score))
      = [("constructor".toList,
          JsVal.str "function Object() \x7b [native code] \x7d10".toList)] := by
  decide

/-- C2 (code defect): on `logProtoRevert` the author `__proto__` has a revert-like commit, the
commit is counted in `totalCommits`, and the leaderboard is empty: the assignment
`scores["__proto__"] = ...` stores nothing. -/
theorem getShameScores_proto_author_absent :
    (∃ c ∈ parseCommits logProtoRevert,
      c.author = "__proto__".toList ∧ isRevertLike toLowerASCII c = true) ∧
    (getShameScores toLowerASCII logProtoRevert).leaderboard = [] ∧
    (getShameScores toLowerASCII logProtoRevert).totalCommits = 1 := by
  decide

/-- C3 (code defect): on `logConstructorAndBob` the two rows have ranks 1 and 2, the first
score is a string and the second is 15, so the rows are not in non-increasing order of a
numeric score. -/
theorem getShameScores_constructor_order :
    (getShameScores toLowerASCII logConstructorAndBob).leaderboard.map
        (fun e => (e.rank, e.author, e.score))
      = [(1, "constructor".toList,
            JsVal.str "function Object() \x7b [native code] \x7d10".toList),
         (2, "bob".toList, JsVal.num 15)] ∧
    ¬ (getShameScores toLowerASCII logConstructorAndBob).leaderboard.Pairwise
        (fun e e' => ∃ n m, e.score = JsVal.num n ∧ e'.score = JsVal.num m ∧ m ≤ n) := by
  have h : (getShameScores toLowerASCII logConstructorAndBob).leaderboard
      = [⟨1, "constructor".toList,
            JsVal.str "function Object() \x7b [native code] \x7d10".toList,
            some .nan, none, some .nan⟩,
         ⟨2, "bob".toList, JsVal.num 15, some (.int 1), some (.int 1), some (.int 1)⟩] := by
    decide
  rw [h]
  refine ⟨rfl, ?_⟩
  intro hp
  obtain ⟨n, m, hn, _, _⟩ := List.rel_of_pairwise_cons hp (List.mem_cons_self _ _)
  exact absurd hn (by simp)

/-- C4 (code defect): on `logConstructorRevert` the author `constructor` has one revert-like
commit, no CI-failure-like commit and one commit, and the row of that author has `reverts` and
`changes` equal to `NaN` and no `fixes` property: `details["constructor"]` is the inherited
function `Object`, so no counters are created and `++` is applied to `undefined`. -/
theorem getShameScores_constructor_counters :
    (parseCommits logConstructorRevert).countP
        (fun c => decide (c.author = "constructor".toList) && isRevertLike toLowerASCII c) = 1 ∧
    (parseCommits logConstructorRevert).countP
        (fun c => decide (c.author = "constructor".toList) && isCIFailure toLowerASCII c) = 0 ∧
    (parseCommits logConstructorRevert).countP
        (fun c => decide (c.author = "constructor".toList)) = 1 ∧
    (getShameScores toLowerASCII logConstructorRevert).leaderboard.map
        (fun e => (e.author, e.reverts, e.fixes, e.changes))
      = [("constructor".toList, some Num.nan, none, some Num.nan)] := by
  decide

/-- C5: `totalCommits` in the result of `getShameScores` is the number of lines of the log text
(split on newline) that are non-empty after trimming white space, and it is the length of
`parseCommits(log)`. -/
theorem totalCommits_eq_nonblank_lines (log : Str) :
    (getShameScores toLowerCase log).totalCommits
        = (split '\n' log).countP (fun line => decide (trim line ≠ [])) ∧
    (getShameScores toLowerCase log).totalCommits = (parseCommits log).length := by
  refine ⟨?_, rfl⟩
  simp only [getShameScores, parseCommits, List.length_map, List.countP_eq_length_filter]
  congr 1
  apply List.filter_congr
  intro l _
  cases h : trim l <;> simp

/-- C6: for a hash, a non-empty author and an email without `|` and newline, and a message
without newline (it may contain `|`), parsing the one line `hash|author|email|message` gives
exactly one commit, made of those four strings. -/
theorem parseCommits_roundtrip (hash author email message : Str)
    (hh : '|' ∉ hash ∧ '\n' ∉ hash)
    (ha : author ≠ [] ∧ '|' ∉ author ∧ '\n' ∉ author)
    (he : '|' ∉ email ∧ '\n' ∉ email)
    (hm : '\n' ∉ message) :
    parseCommits (hash ++ ['|'] ++ author ++ ['|'] ++ email ++ ['|'] ++ message)
      = [⟨hash, author, email, message⟩] := by
  have hline : '\n' ∉ hash ++ ['|'] ++ author ++ ['|'] ++ email ++ ['|'] ++ message := by
    simp [hh.2, ha.2.2, he.2, hm]
  have hblank : trim (hash ++ ['|'] ++ author ++ ['|'] ++ email ++ ['|'] ++ message) ≠ [] := by
    intro h
    have := (trim_eq_nil_iff _).mp h '|' (by simp)
    simp [isWhiteSpace] at this
  have hsplit : split '|' (hash ++ ['|'] ++ author ++ ['|'] ++ email ++ ['|'] ++ message)
      = hash :: author :: email :: split '|' message := by
    have e : hash ++ ['|'] ++ author ++ ['|'] ++ email ++ ['|'] ++ message
        = hash ++ '|' :: (author ++ '|' :: (email ++ '|' :: message)) := by simp
    rw [e, split_append_sep _ _ _ hh.1, split_append_sep _ _ _ ha.2.1,
      split_append_sep _ _ _ he.1]
  have hne : (trim (hash ++ ['|'] ++ author ++ ['|'] ++ email ++ ['|'] ++ message)).isEmpty
      = false := by
    cases h : trim (hash ++ ['|'] ++ author ++ ['|'] ++ email ++ ['|'] ++ message) with
    | nil => exact absurd h hblank
    | cons c cs => rfl
  simp only [parseCommits, split_of_not_mem _ _ hline, List.filter_cons, hne, Bool.not_false,
    if_true, List.filter_nil, List.map_cons, List.map_nil, parseLine, hsplit]
  simp [join_split, orElse_some _ _ ha.1, orElse_some_nil_default]

/-- Witness for C6: a subject line that contains the delimiter twice. -/
theorem parseCommits_roundtrip_witness :
    parseCommits ("abc123".toList ++ ['|'] ++ "Alice".toList ++ ['|'] ++ "a@x.com".toList ++
        ['|'] ++ "merge a|b | c".toList)
      = [⟨"abc123".toList, "Alice".toList, "a@x.com".toList, "merge a|b | c".toList⟩] :=
  parseCommits_roundtrip "abc123".toList "Alice".toList "a@x.com".toList "merge a|b | c".toList
    (by decide) (by decide) (by decide) (by decide)

/-- C7: for a non-blank line of the log, the parsed commit has author `unknown` when the
line has no second `|`-separated field or that field is empty, email `""` when the third field
is missing and message `""` when there is no fourth field; a non-blank line without any `|`
gives the commit with the whole line as hash, author `unknown` and empty email and message. -/
theorem parseCommits_defaults (log line : Str)
    (hline : line ∈ split '\n' log) (hnb : trim line ≠ []) :
    parseLine line ∈ parseCommits log ∧
    (((split '|' line)[1]? = none ∨ (split '|' line)[1]? = some []) →
      (parseLine line).author = "unknown".toList) ∧
    ((split '|' line)[2]? = none → (parseLine line).email = []) ∧
    ((split '|' line)[3]? = none → (parseLine line).message = []) ∧
    ('|' ∉ line → parseLine line = ⟨line, "unknown".toList, [], []⟩) := by
  refine ⟨?_, ?_, ?_, ?_, ?_⟩
  · refine List.mem_map.mpr ⟨line, List.mem_filter.mpr ⟨hline, ?_⟩, rfl⟩
    cases h : trim line with
    | nil => exact absurd h hnb
    | cons c cs => rfl
  · rintro (h | h) <;> simp [parseLine, h, orElse]
  · intro h; simp [parseLine, h, orElse]
  · intro h
    have hd : (split '|' line).drop 3 = [] := by
      rw [List.drop_eq_nil_iff]
      exact List.getElem?_eq_none_iff.mp h
    simp [parseLine, hd, join, orElse]
  · intro h
    simp [parseLine, split_of_not_mem _ _ h, join, orElse]

/-- Witness for C7: the second line of a two-line log has no `|`. -/
theorem parseCommits_defaults_witness :
    parseLine "deadbeef".toList ∈ parseCommits "a|b|c|d\ndeadbeef".toList ∧
    parseLine "deadbeef".toList = ⟨"deadbeef".toList, "unknown".toList, [], []⟩ :=
  have h := parseCommits_defaults "a|b|c|d\ndeadbeef".toList "deadbeef".toList
    (by decide) (by decide)
  ⟨h.1, h.2.2.2.2 (by decide)⟩

/-- C8: `getStreak` is 0 when the first commit of the named author in log order has a message
containing `rollback`; it is the number of that author's commits when none of their messages
contains `revert` or `rollback` (after lower-casing); it is 0 for an author without commits. -/
theorem getStreak_rollback_or_clean (log author : Str) :
    (∀ c, ((parseCommits log).filter (fun c => c.author = author)).head? = some c →
      includes (toLowerCase c.message) "rollback".toList = true →
      getStreak toLowerCase log author = 0) ∧
    ((∀ c ∈ (parseCommits log).filter (fun c => c.author = author),
        includes (toLowerCase c.message) "revert".toList = false ∧
        includes (toLowerCase c.message) "rollback".toList = false) →
      getStreak toLowerCase log author
        = ((parseCommits log).filter (fun c => c.author = author)).length) ∧
    ((parseCommits log).filter (fun c => c.author = author) = [] →
      getStreak toLowerCase log author = 0) := by
  refine ⟨?_, ?_, ?_⟩
  · intro c hc hr
    unfold getStreak
    cases hcs : (parseCommits log).filter (fun c => c.author = author) with
    | nil => rfl
    | cons d rest =>
      rw [hcs] at hc
      simp only [List.head?_cons, Option.some.injEq] at hc
      subst hc
      simp only [streakLoop, breaksStreak, hr, Bool.or_true, if_true]
  · intro h
    unfold getStreak
    rw [streakLoop_all_clean]
    · simp
    · intro c hc
      simp only [breaksStreak, (h c hc).1, (h c hc).2, Bool.or_false]
  · intro h
    simp [getStreak, h, streakLoop]

/-- Witness for C8: a rollback on top gives 0, a clean history gives the full count. -/
theorem getStreak_rollback_or_clean_witness :
    getStreak toLowerASCII "a|Al|e|Rollback deploy\nb|Al|e|add x".toList "Al".toList = 0 ∧
    getStreak toLowerASCII "a|Al|e|one\nb|Bo|e|Revert one\nc|Al|e|two".toList "Al".toList = 2 ∧
    getStreak toLowerASCII "a|Al|e|one".toList "Bo".toList = 0 :=
  ⟨(getStreak_rollback_or_clean toLowerASCII "a|Al|e|Rollback deploy\nb|Al|e|add x".toList
      "Al".toList).1 ⟨['a'], "Al".toList, ['e'], "Rollback deploy".toList⟩ (by decide) (by decide),
   (getStreak_rollback_or_clean toLowerASCII "a|Al|e|one\nb|Bo|e|Revert one\nc|Al|e|two".toList
      "Al".toList).2.1 (by decide),
   (getStreak_rollback_or_clean toLowerASCII "a|Al|e|one".toList "Bo".toList).2.2 (by decide)⟩

/-- C9: `getStreak` is the length `k` of the longest prefix of the author's commits (exact
author match, log order) in which no lower-cased message contains `revert` or `rollback`:
`k` is at most the number of the author's commits, the first `k` of them are unflagged, and
either `k` is that number or the author's commit at index `k` is flagged. -/
theorem getStreak_longest_clean_prefix (log author : Str) :
    getStreak toLowerCase log author
        ≤ ((parseCommits log).filter (fun c => c.author = author)).length ∧
    (∀ c ∈ ((parseCommits log).filter (fun c => c.author = author)).take
          (getStreak toLowerCase log author),
        includes (toLowerCase c.message) "revert".toList = false ∧
        includes (toLowerCase c.message) "rollback".toList = false) ∧
    (getStreak toLowerCase log author
        = ((parseCommits log).filter (fun c => c.author = author)).length ∨
      ∃ c, ((parseCommits log).filter (fun c => c.author = author)).get?
            (getStreak toLowerCase log author) = some c ∧
        (includes (toLowerCase c.message) "revert".toList = true ∨
         includes (toLowerCase c.message) "rollback".toList = true)) := by
  have hle := streakLoop_le toLowerCase ((parseCommits log).filter (fun c => c.author = author)) 0
  have hsp := streakLoop_spec toLowerCase
    ((parseCommits log).filter (fun c => c.author = author)) 0
  simp only [Nat.sub_zero, Nat.zero_add] at hle hsp
  refine ⟨hle.2, ?_, ?_⟩
  · intro c hc
    have := hsp.1 c hc
    simpa [breaksStreak] using this
  · rcases hsp.2 with h | ⟨c, hc, hb⟩
    · exact Or.inl h
    · exact Or.inr ⟨c, hc, by simpa [breaksStreak] using hb⟩

/-- Witness for C9: the streak of `Al` stops at the revert, which is their commit at index 1. -/
theorem getStreak_longest_clean_prefix_witness :
    getStreak toLowerASCII "a|Al|e|one\nb|Bo|e|x\nc|Al|e|REVERT y\nd|Al|e|z".toList "Al".toList
      ≤ 3 ∧
    ∀ c ∈ ((parseCommits "a|Al|e|one\nb|Bo|e|x\nc|Al|e|REVERT y\nd|Al|e|z".toList).filter
          (fun c => c.author = "Al".toList)).take
        (getStreak toLowerASCII "a|Al|e|one\nb|Bo|e|x\nc|Al|e|REVERT y\nd|Al|e|z".toList
          "Al".toList),
      includes (toLowerASCII c.message) "revert".toList = false ∧
      includes (toLowerASCII c.message) "rollback".toList = false :=
  have h := getStreak_longest_clean_prefix toLowerASCII
    "a|Al|e|one\nb|Bo|e|x\nc|Al|e|REVERT y\nd|Al|e|z".toList "Al".toList
  ⟨h.1, h.2.1⟩

/-- C10 (code defect): on `logProtoBreak` the one commit mentions `break`, no commit
mentions `hotfix` or `rollback`, `totalBreaking` is 1 and `byAuthor` has no property at all, so
the total exceeds the sum of the tallies by 1 and not by 0. -/
theorem getCIFailureStats_proto_author_untallied :
    (parseCommits logProtoBreak).countP
        (fun c => decide (c.author = "__proto__".toList) && countsForAuthor toLowerASCII c)
      = 1 ∧
    (parseCommits logProtoBreak).countP (fun c =>
        (includes (toLowerASCII c.message) "hotfix".toList ||
          includes (toLowerASCII c.message) "rollback".toList) &&
        !(includes (toLowerASCII c.message) "break".toList ||
          includes (toLowerASCII c.message) "emergency".toList)) = 0 ∧
    getCIFailureStats toLowerASCII logProtoBreak = ⟨1, []⟩ ∧
    (getCIFailureStats toLowerASCII logProtoBreak).totalBreaking
      - sumCounts (getCIFailureStats toLowerASCII logProtoBreak).byAuthor = 1 := by
  decide

end Claims

/-! ## Facts about logs of several lines -/

theorem split_join_lines (sep : Char) (lines : List Str) (hne : lines ≠ [])
    (h : ∀ l ∈ lines, sep ∉ l) : split sep (join [sep] lines) = lines := by
  induction lines with
  | nil => exact absurd rfl hne
  | cons l rest ih =>
    cases rest with
    | nil => simpa [join] using split_of_not_mem sep l (h l (List.mem_cons_self _ _))
    | cons l' rest' =>
      have e : join [sep] (l :: l' :: rest') = l ++ sep :: join [sep] (l' :: rest') := by
        simp [join]
      rw [e, split_append_sep _ _ _ (h l (List.mem_cons_self _ _)),
        ih (by simp) (fun x hx => h x (List.mem_cons_of_mem _ hx))]

theorem trim_ne_nil_of_mem (s : Str) (c : Char) (hc : c ∈ s) (hw : isWhiteSpace c = false) :
    trim s ≠ [] := by
  intro h
  have := (trim_eq_nil_iff s).mp h c hc
  rw [hw] at this
  exact absurd this (by decide)

/-- A log made of lines without newline, each with a character that is not white space, is
parsed line by line. -/
theorem parseCommits_join_lines (lines : List Str) (hne : lines ≠ [])
    (h : ∀ l ∈ lines, '\n' ∉ l) (hb : ∀ l ∈ lines, trim l ≠ []) :
    parseCommits (join ['\n'] lines) = lines.map parseLine := by
  unfold parseCommits
  rw [split_join_lines _ _ hne h]
  congr 1
  apply List.filter_eq_self.mpr
  intro l hl
  cases ht : trim l with
  | nil => exact absurd ht (hb l hl)
  | cons c cs => rfl

theorem parseLine_fields (hash author email message : Str)
    (hh : '|' ∉ hash) (ha : author ≠ [] ∧ '|' ∉ author) (he : '|' ∉ email) :
    parseLine (hash ++ ['|'] ++ author ++ ['|'] ++ email ++ ['|'] ++ message)
      = ⟨hash, author, email, message⟩ := by
  have hsplit : split '|' (hash ++ ['|'] ++ author ++ ['|'] ++ email ++ ['|'] ++ message)
      = hash :: author :: email :: split '|' message := by
    have e : hash ++ ['|'] ++ author ++ ['|'] ++ email ++ ['|'] ++ message
        = hash ++ '|' :: (author ++ '|' :: (email ++ '|' :: message)) := by simp
    rw [e, split_append_sep _ _ _ hh, split_append_sep _ _ _ ha.2, split_append_sep _ _ _ he]
  simp only [parseLine, hsplit]
  simp [join_split, orElse_some _ _ ha.1, orElse_some_nil_default]


/-- The commits of `aliceLog`: the revert of `Alice`, then one commit per further line. -/
theorem parseCommits_aliceLog (further : List (Str × Str × Str))
    (hlines : ∀ x ∈ further, '|' ∉ x.1 ∧ '\n' ∉ x.1 ∧ '|' ∉ x.2.1 ∧ '\n' ∉ x.2.1 ∧
      '\n' ∉ x.2.2) :
    parseCommits (aliceLog further)
      = ⟨"abc123".toList, "Alice".toList, "a@x.com".toList, "Revert \"bad change\"".toList⟩ ::
        further.map (fun x => ⟨x.1, "Alice".toList, x.2.1, x.2.2⟩) := by
  unfold aliceLog
  rw [parseCommits_join_lines]
  · have e1 : parseLine "abc123|Alice|a@x.com|Revert \"bad change\"".toList
        = ⟨"abc123".toList, "Alice".toList, "a@x.com".toList,
            "Revert \"bad change\"".toList⟩ := by decide
    rw [List.map_cons, List.map_map, e1]
    congr 1
    apply List.map_congr_left
    intro x hx
    obtain ⟨h1, _, h3, _, _⟩ := hlines x hx
    exact parseLine_fields x.1 "Alice".toList x.2.1 x.2.2 h1 (by decide) h3
  · simp
  · intro l hl
    rcases List.mem_cons.mp hl with rfl | hl
    · decide
    · obtain ⟨x, hx, rfl⟩ := List.mem_map.mp hl
      obtain ⟨_, h2, _, h4, h5⟩ := hlines x hx
      have hA : '\n' ∉ "Alice".toList := by decide
      simp [h2, h4, h5, hA]
  · intro l hl
    rcases List.mem_cons.mp hl with rfl | hl
    · decide
    · obtain ⟨x, hx, rfl⟩ := List.mem_map.mp hl
      exact trim_ne_nil_of_mem _ '|' (by simp) (by decide)

/-! ## Facts about `getRevertStats` -/

theorem addPoints_all_pos (pts : Nat) (hp : 0 < pts) (o : Obj JsVal) (k : Str)
    (hk : k ∉ objectPrototypeKeys) (h : ∀ p ∈ o, ∃ n, 0 < n ∧ p.2 = JsVal.num n) :
    ∀ p ∈ addPoints pts o k, ∃ n, 0 < n ∧ p.2 = JsVal.num n := by
  have hproto : k ≠ "__proto__".toList := fun e => hk (e ▸ proto_mem_objectPrototypeKeys)
  intro p hp'
  unfold addPoints at hp'
  split at hp'
  · next m hm =>
    rcases Obj.mem_setOwn _ _ _ _ hp' with h' | h'
    · exact h p h'
    · exact ⟨m + pts, by omega, by rw [h']⟩
  · next s hs =>
    obtain ⟨n, _, hn⟩ := h _ (Obj.mem_of_getOwn _ _ _ hs)
    simp at hn
  · rw [if_neg hproto, if_neg hk] at hp'
    rcases Obj.mem_setOwn _ _ _ _ hp' with h' | h'
    · exact h p h'
    · exact ⟨_, hp, by rw [h']⟩

theorem foldl_addPoints_all_pos (pts : Nat) (hp : 0 < pts) (cs : List Commit) (o : Obj JsVal)
    (hcs : ∀ c ∈ cs, c.author ∉ objectPrototypeKeys)
    (h : ∀ p ∈ o, ∃ n, 0 < n ∧ p.2 = JsVal.num n) :
    ∀ p ∈ cs.foldl (fun acc c => addPoints pts acc c.author) o,
      ∃ n, 0 < n ∧ p.2 = JsVal.num n := by
  induction cs generalizing o with
  | nil => exact h
  | cons c rest ih =>
    exact ih _ (fun d hd => hcs d (List.mem_cons_of_mem _ hd))
      (addPoints_all_pos _ hp _ _ (hcs c (List.mem_cons_self _ _)) h)

section RevertFacts

variable (toLowerCase : Str → Str)

/-- When no commit author is a key of `Object.prototype`, the per-author tallies of
`getRevertStats` are positive numbers and add up to `totalReverts`. -/
theorem revertStats_sum_of_plain_authors (log : Str)
    (h : ∀ c ∈ parseCommits log, c.author ∉ objectPrototypeKeys) :
    sumCounts (getRevertStats toLowerCase log).byAuthor
        = (getRevertStats toLowerCase log).totalReverts ∧
    ∀ p ∈ (getRevertStats toLowerCase log).byAuthor, ∃ n, 1 ≤ n ∧ p.2 = JsVal.num n := by
  constructor
  · simp only [getRevertStats]
    rw [sumCounts_foldl_addPoints 1 _ [] (fun c hc => h c (List.mem_filter.mp hc).1) (by simp)]
    simp [sumCounts]
  · simp only [getRevertStats]
    exact foldl_addPoints_all_pos 1 (by decide) _ []
      (fun c hc => h c (List.mem_filter.mp hc).1) (by simp)

/-- The tally of an author that is not a key of `Object.prototype` is the number of that
author's commits whose message contains `revert`. -/
theorem revertStats_byAuthor_of_plain_author (log : Str) (a : Str)
    (ha : a ∉ objectPrototypeKeys) :
    (getRevertStats toLowerCase log).byAuthor.getOwn a
      = if (parseCommits log).countP
            (fun c => decide (c.author = a) && isRevert toLowerCase c) = 0 then none
        else some (.num ((parseCommits log).countP
            (fun c => decide (c.author = a) && isRevert toLowerCase c))) := by
  simp only [getRevertStats]
  have h := foldl_addPoints_getOwn 1 (by decide) a ha
    ((parseCommits log).filter (isRevert toLowerCase)) [] 0 (by simp [Obj.getOwn])
  rw [h]
  simp only [List.countP_filter, Nat.zero_add, Nat.one_mul]

end RevertFacts

/-! ## Facts about the keyword sets -/

theorem includes_of_includes_longer (s k k' : Str) (hk : k <:+: k')
    (h : includes s k' = true) : includes s k = true := by
  rw [includes_iff_contiguous] at h ⊢
  exact hk.trans h

section KeywordFacts

variable (toLowerCase : Str → Str)

/-- A message with `fix:` or `hotfix` is revert-like and CI-failure-like, because both keywords
contain `fix`. -/
theorem fix_keywords_are_both_kinds (c : Commit)
    (h : includes (toLowerCase c.message) "fix:".toList = true ∨
      includes (toLowerCase c.message) "hotfix".toList = true) :
    isRevertLike toLowerCase c = true ∧ isCIFailure toLowerCase c = true := by
  have hfix : includes (toLowerCase c.message) "fix".toList = true := by
    rcases h with h | h
    · exact includes_of_includes_longer _ _ _ ⟨[], [':'], rfl⟩ h
    · exact includes_of_includes_longer _ _ _ ⟨['h', 'o', 't'], [], rfl⟩ h
  constructor
  · rcases h with h | h <;> simp only [isRevertLike, h, Bool.or_true, Bool.true_or]
  · simp only [isCIFailure, hfix, Bool.or_true, Bool.true_or]

/-- A message that is revert-like and not CI-failure-like contains `revert` and none of `ci`,
`fix`, `emergency`. -/
theorem revert_only_of_not_ci (c : Commit)
    (hr : isRevertLike toLowerCase c = true) (hc : isCIFailure toLowerCase c = false) :
    includes (toLowerCase c.message) "revert".toList = true ∧
    includes (toLowerCase c.message) "ci".toList = false ∧
    includes (toLowerCase c.message) "fix".toList = false ∧
    includes (toLowerCase c.message) "emergency".toList = false := by
  have hci : includes (toLowerCase c.message) "ci".toList = false ∧
      includes (toLowerCase c.message) "fix".toList = false ∧
      includes (toLowerCase c.message) "emergency".toList = false := by
    simpa [isCIFailure, and_assoc] using hc
  refine ⟨?_, hci⟩
  by_contra hrev
  have h' : includes (toLowerCase c.message) "fix:".toList = true ∨
      includes (toLowerCase c.message) "hotfix".toList = true := by
    simp only [isRevertLike, Bool.or_eq_true] at hr
    rcases hr with (hr | hr) | hr
    · exact absurd hr hrev
    · exact Or.inl hr
    · exact Or.inr hr
  have := (fix_keywords_are_both_kinds toLowerCase c h').2
  rw [hc] at this
  exact absurd this (by decide)

/-- For an author that is not a key of `Object.prototype`, a further commit raises the stored
score by 10 if it is revert-like plus 5 if it is CI-failure-like. -/
theorem score_after_commit_of_plain_author (commits : List Commit) (c : Commit)
    (ha : c.author ∉ objectPrototypeKeys)
    (hm : isRevertLike toLowerCase c = true ∨ isCIFailure toLowerCase c = true) :
    (tally toLowerCase (commits ++ [c])).scores.getOwn c.author
      = some (.num
          (10 * commits.countP
              (fun d => decide (d.author = c.author) && isRevertLike toLowerCase d)
            + 5 * commits.countP
              (fun d => decide (d.author = c.author) && isCIFailure toLowerCase d)
            + ((if isRevertLike toLowerCase c then 10 else 0)
              + (if isCIFailure toLowerCase c then 5 else 0)))) := by
  rw [tally_scores_getOwn toLowerCase _ _ ha]
  simp only [List.countP_append, List.countP_cons, List.countP_nil, decide_True, Bool.true_and,
    Nat.zero_add]
  rcases hm with hm | hm
  · cases hci : isCIFailure toLowerCase c <;> simp [hm] <;> omega
  · cases hrl : isRevertLike toLowerCase c <;> simp [hm] <;> omega

end KeywordFacts

/-! ## Facts about the counters of the leaderboard -/

theorem sum_indicator_eq_zero (as : List Str) (x : Str) (hx : x ∉ as) :
    (as.map (fun a => if x = a then 1 else 0)).sum = 0 := by
  induction as with
  | nil => rfl
  | cons a rest ih =>
    have hne : x ≠ a := fun e => hx (e ▸ List.mem_cons_self _ _)
    have hrest : x ∉ rest := fun e => hx (List.mem_cons_of_mem _ e)
    simp only [List.map_cons, List.sum_cons, if_neg hne, ih hrest]

theorem sum_indicator_le_one (as : List Str) (hn : as.Nodup) (x : Str) :
    (as.map (fun a => if x = a then 1 else 0)).sum ≤ 1 := by
  induction as with
  | nil => simp
  | cons a rest ih =>
    rw [List.nodup_cons] at hn
    simp only [List.map_cons, List.sum_cons]
    by_cases hx : x = a
    · subst hx
      rw [if_pos rfl, sum_indicator_eq_zero rest x hn.1]
    · rw [if_neg hx]
      have := ih hn.2
      omega

/-- The commit counts of distinct authors add up to at most the number of commits. -/
theorem sum_countP_author_le (as : List Str) (hn : as.Nodup) (cs : List Commit) :
    (as.map (fun a => cs.countP (fun c => decide (c.author = a)))).sum ≤ cs.length := by
  induction cs with
  | nil => simp
  | cons c rest ih =>
    have e : (as.map (fun a => (c :: rest).countP (fun c => decide (c.author = a)))).sum
        = (as.map (fun a => rest.countP (fun c => decide (c.author = a)))).sum
          + (as.map (fun a => if c.author = a then 1 else 0)).sum := by
      rw [← List.sum_map_add]
      congr 1
      apply List.map_congr_left
      intro a _
      simp only [List.countP_cons, decide_eq_true_eq]
    rw [e, List.length_cons]
    have := sum_indicator_le_one as hn c.author
    omega

section CounterFacts

variable (toLowerCase : Str → Str)

/-- Rows of authors that are not keys of `Object.prototype`: the score is
`10 * reverts + 5 * fixes`, neither counter exceeds `changes`, and the score lies between 5 and
`15 * changes`. -/
theorem leaderboard_entry_bounds_of_plain_author (log : Str) (e : LeaderboardEntry)
    (he : e ∈ (getShameScores toLowerCase log).leaderboard)
    (ha : e.author ∉ objectPrototypeKeys) :
    ∃ r f n, e.score = .num (10 * r + 5 * f) ∧ e.reverts = some (.int r) ∧
      e.fixes = some (.int f) ∧ e.changes = some (.int n) ∧
      r ≤ n ∧ f ≤ n ∧ 5 ≤ 10 * r + 5 * f ∧ 10 * r + 5 * f ≤ 15 * n := by
  obtain ⟨hs, hr, hf, hn⟩ := leaderboard_entry_of_plain_author toLowerCase log e he ha
  obtain ⟨c, hc, hca, hm⟩ := leaderboard_author_has_match toLowerCase log e.author ⟨e, he, rfl⟩
  have hR : (parseCommits log).countP
      (fun c => decide (c.author = e.author) && isRevertLike toLowerCase c)
      ≤ (parseCommits log).countP (fun c => decide (c.author = e.author)) := by
    apply List.countP_mono_left
    intro c _ h
    simp only [Bool.and_eq_true] at h
    exact h.1
  have hC : (parseCommits log).countP
      (fun c => decide (c.author = e.author) && isCIFailure toLowerCase c)
      ≤ (parseCommits log).countP (fun c => decide (c.author = e.author)) := by
    apply List.countP_mono_left
    intro c _ h
    simp only [Bool.and_eq_true] at h
    exact h.1
  have hpos : 0 < (parseCommits log).countP
        (fun c => decide (c.author = e.author) && isRevertLike toLowerCase c)
      + (parseCommits log).countP
        (fun c => decide (c.author = e.author) && isCIFailure toLowerCase c) := by
    rcases hm with hm | hm
    · have : 0 < (parseCommits log).countP
          (fun c => decide (c.author = e.author) && isRevertLike toLowerCase c) :=
        List.countP_pos_iff.mpr ⟨c, hc, by simp [hca, hm]⟩
      omega
    · have : 0 < (parseCommits log).countP
          (fun c => decide (c.author = e.author) && isCIFailure toLowerCase c) :=
        List.countP_pos_iff.mpr ⟨c, hc, by simp [hca, hm]⟩
      omega
  exact ⟨_, _, _, hs, hr, hf, hn, hR, hC, by omega, by omega⟩

/-- When no commit author is a key of `Object.prototype`, the `changes` counters of the rows
add up to at most `totalCommits`. -/
theorem leaderboard_changes_sum_le_of_plain_authors (log : Str)
    (h : ∀ c ∈ parseCommits log, c.author ∉ objectPrototypeKeys) :
    ((getShameScores toLowerCase log).leaderboard.map
        (fun e => match e.changes with
          | some (.int n) => n
          | _ => 0)).sum
      ≤ (getShameScores toLowerCase log).totalCommits := by
  have hplain : ∀ e ∈ (getShameScores toLowerCase log).leaderboard,
      e.author ∉ objectPrototypeKeys := by
    intro e he
    obtain ⟨c, hc, hca, _⟩ := leaderboard_author_has_match toLowerCase log e.author ⟨e, he, rfl⟩
    exact hca ▸ h c hc
  have e1 : (getShameScores toLowerCase log).leaderboard.map
        (fun e => match e.changes with
          | some (.int n) => n
          | _ => 0)
      = ((getShameScores toLowerCase log).leaderboard.map (fun e => e.author)).map
          (fun a => (parseCommits log).countP (fun c => decide (c.author = a))) := by
    rw [List.map_map]
    apply List.map_congr_left
    intro e he
    have := (leaderboard_entry_of_plain_author toLowerCase log e he (hplain e he)).2.2.2
    simp only [Function.comp, this]
  rw [e1]
  exact sum_countP_author_le _ (leaderboard_authors_nodup toLowerCase log) _

end CounterFacts

/-! ## Facts about the numbers of `getHallOfFame` -/

theorem roundHalfEven_le (num den bound : Nat) (hd : 0 < den) (h : num ≤ bound * den) :
    roundHalfEven num den ≤ bound := by
  have hq : num / den ≤ bound := Nat.div_le_of_le_mul (by rwa [Nat.mul_comm] at h)
  unfold roundHalfEven
  rcases Nat.lt_or_eq_of_le hq with hlt | heq
  · simp only
    split
    · omega
    · split
      · omega
      · split <;> omega
  · have h1 : num / den * den ≤ num := Nat.div_mul_le_self num den
    have h2 : num = bound * den := by
      rw [heq] at h1
      omega
    have hr : num % den = 0 := by
      rw [h2]
      exact Nat.mul_mod_left _ _
    simp only [hr, Nat.mul_zero, hd, if_true]
    exact hq

/-- Rounding to the nearest binary64 number does not cross the integer `bound`. -/
theorem roundFrac_le (a b bound : Nat) (hb : 0 < b) (h : a ≤ bound * b) :
    (roundFrac a b).mant ≤ bound * 2 ^ (roundFrac a b).scale := by
  unfold roundFrac
  split
  · simp
  · simp only
    apply roundHalfEven_le _ _ _ hb
    calc a * 2 ^ scaleOf a b ≤ bound * b * 2 ^ scaleOf a b := Nat.mul_le_mul_right _ h
      _ = bound * 2 ^ scaleOf a b * b := by ring

theorem tenths_le (d : Double) (bound : Nat) (h : d.mant ≤ bound * 2 ^ d.scale) :
    tenths d ≤ 10 * bound := by
  unfold tenths
  have hpos : 0 < 2 ^ d.scale := Nat.two_pow_pos _
  have h2 : 20 * d.mant + 2 ^ d.scale < (10 * bound + 1) * 2 ^ (d.scale + 1) := by
    have e : (10 * bound + 1) * 2 ^ (d.scale + 1)
        = 20 * (bound * 2 ^ d.scale) + 2 * 2 ^ d.scale := by
      rw [Nat.pow_succ]
      ring
    rw [e]
    omega
  have := (Nat.div_lt_iff_lt_mul (Nat.two_pow_pos _)).mpr h2
  omega

/-- The quality of an author with at least one commit is the numeral, with one decimal, of a
number between 0.0 and 100.0. -/
theorem qualityOf_range (s : AuthorStat) (hc : 0 < s.commits) :
    ∃ n, n ≤ 1000 ∧ qualityOf s = JsVal.str (oneDecimal n) := by
  unfold qualityOf
  rw [if_pos hc]
  refine ⟨_, ?_, rfl⟩
  have h1 : (roundFrac (s.commits - s.reverts) s.commits).mant
      ≤ 1 * 2 ^ (roundFrac (s.commits - s.reverts) s.commits).scale :=
    roundFrac_le _ _ 1 hc (by omega)
  have h2 := roundFrac_le
    (100 * (roundFrac (s.commits - s.reverts) s.commits).mant)
    (2 ^ (roundFrac (s.commits - s.reverts) s.commits).scale) 100
    (Nat.two_pow_pos _) (by omega)
  exact tenths_le _ 100 h2

theorem mem_of_mem_sliceTo {α : Type} (l : List α) (limit : Int) (x : α)
    (h : x ∈ sliceTo l limit) : x ∈ l := by
  unfold sliceTo at h
  split at h <;> exact List.mem_of_mem_take h

theorem length_sliceTo_le {α : Type} (l : List α) (limit : Int) (h : 0 ≤ limit) :
    (sliceTo l limit).length ≤ limit.toNat := by
  unfold sliceTo
  rw [if_neg (by omega)]
  exact List.length_take_le _ _

/-! ## Facts about the loop of `getHallOfFame` -/

section FameFacts

variable (toLowerCase : Str → Str)

theorem countFame_getOwn_of_ne (stats : Obj AuthorStat) (c : Commit) (a : Str)
    (h : a ≠ c.author) :
    (countFame toLowerCase stats c).getOwn a = stats.getOwn a := by
  unfold countFame
  split
  · exact Obj.getOwn_setOwn_of_ne _ _ _ _ h
  · split
    · rfl
    · exact Obj.getOwn_setOwn_of_ne _ _ _ _ h

theorem countFame_keys (stats : Obj AuthorStat) (c : Commit)
    (h : ∀ p ∈ stats, p.1 ∉ objectPrototypeKeys) :
    ∀ p ∈ countFame toLowerCase stats c, p.1 ∉ objectPrototypeKeys := by
  intro p hp
  unfold countFame at hp
  split at hp
  · next s hs =>
    rcases Obj.mem_setOwn _ _ _ _ hp with h' | h'
    · exact h p h'
    · rw [h']
      exact h (c.author, s) (Obj.mem_of_getOwn _ _ _ hs)
  · split at hp
    · exact h p hp
    · next hplain =>
      rcases Obj.mem_setOwn _ _ _ _ hp with h' | h'
      · exact h p h'
      · rw [h']
        exact hplain

theorem countFame_nodup_keys (stats : Obj AuthorStat) (c : Commit)
    (h : (stats.map Prod.fst).Nodup) :
    ((countFame toLowerCase stats c).map Prod.fst).Nodup := by
  unfold countFame
  split
  · exact Obj.nodup_keys_setOwn _ _ _ h
  · split
    · exact h
    · exact Obj.nodup_keys_setOwn _ _ _ h

theorem foldl_countFame_keys (cs : List Commit) (stats : Obj AuthorStat)
    (h : ∀ p ∈ stats, p.1 ∉ objectPrototypeKeys) :
    ∀ p ∈ cs.foldl (countFame toLowerCase) stats, p.1 ∉ objectPrototypeKeys := by
  induction cs generalizing stats with
  | nil => exact h
  | cons c rest ih => exact ih _ (countFame_keys toLowerCase _ _ h)

theorem foldl_countFame_nodup_keys (cs : List Commit) (stats : Obj AuthorStat)
    (h : (stats.map Prod.fst).Nodup) :
    ((cs.foldl (countFame toLowerCase) stats).map Prod.fst).Nodup := by
  induction cs generalizing stats with
  | nil => exact h
  | cons c rest ih => exact ih _ (countFame_nodup_keys toLowerCase _ _ h)

/-- The counters kept for an author that is not a key of `Object.prototype`. -/
theorem foldl_countFame_getOwn (a : Str) (ha : a ∉ objectPrototypeKeys) (cs : List Commit)
    (stats : Obj AuthorStat) (n r : Nat) (hr : n = 0 → r = 0)
    (h : stats.getOwn a = if n = 0 then none else some ⟨n, r⟩) :
    (cs.foldl (countFame toLowerCase) stats).getOwn a
      = if n + cs.countP (fun c => decide (c.author = a)) = 0 then none
        else some ⟨n + cs.countP (fun c => decide (c.author = a)),
          r + cs.countP (fun c => decide (c.author = a) && isRevert toLowerCase c)⟩ := by
  induction cs generalizing stats n r with
  | nil => simpa using h
  | cons c rest ih =>
    simp only [List.foldl_cons, List.countP_cons]
    by_cases hc : c.author = a
    · have h1 : (countFame toLowerCase stats c).getOwn a
          = if n + 1 = 0 then none
            else some ⟨n + 1, r + if isRevert toLowerCase c then 1 else 0⟩ := by
        rw [if_neg (by omega)]
        unfold countFame
        rw [hc, h]
        by_cases hn : n = 0
        · have hr0 := hr hn
          subst hn hr0
          simp only [if_true, if_neg ha]
          rw [Obj.getOwn_setOwn_self]
          cases isRevert toLowerCase c <;> simp
        · simp only [if_neg hn]
          rw [Obj.getOwn_setOwn_self]
          cases isRevert toLowerCase c <;> simp
      rw [ih _ _ _ (by omega) h1]
      simp only [hc, decide_True, Bool.true_and, if_true]
      have e1 : n + 1 + List.countP (fun c => decide (c.author = a)) rest
          = n + (List.countP (fun c => decide (c.author = a)) rest + 1) := by omega
      have e2 : (r + if isRevert toLowerCase c = true then 1 else 0)
            + List.countP (fun c => decide (c.author = a) && isRevert toLowerCase c) rest
          = r + (List.countP (fun c => decide (c.author = a) && isRevert toLowerCase c) rest
            + if isRevert toLowerCase c = true then 1 else 0) := by omega
      rw [e1, e2]
    · have h1 : (countFame toLowerCase stats c).getOwn a
          = if n = 0 then none else some ⟨n, r⟩ := by
        rw [countFame_getOwn_of_ne toLowerCase _ _ _ (fun e => hc e.symm)]
        exact h
      rw [ih _ _ _ hr h1]
      simp only [hc, decide_False, Bool.false_and, Bool.false_eq_true, if_false, Nat.add_zero]

end FameFacts

/-! ## Facts about the order of the hall of fame -/

set_option maxRecDepth 100000 in
/-- Reading back a numeral written with one decimal gives the binary64 number nearest to the
value written. -/
theorem parseFloat_oneDecimal :
    ∀ n, n < 1001 → parseFloat (oneDecimal n) = some (roundFrac n 10) := by
  decide

/-- The quality of an author with at least one commit, read as a number by `parseFloat`, is a
binary64 number between 0 and 100. -/
theorem parseQuality_qualityOf (s : AuthorStat) (hc : 0 < s.commits) :
    ∃ n, n ≤ 1000 ∧ qualityOf s = JsVal.str (oneDecimal n) ∧
      parseQuality (qualityOf s) = some (roundFrac n 10) ∧
      (roundFrac n 10).mant ≤ 100 * 2 ^ (roundFrac n 10).scale := by
  obtain ⟨n, hn, hq⟩ := qualityOf_range s hc
  refine ⟨n, hn, hq, ?_, roundFrac_le n 10 100 (by decide) (by omega)⟩
  rw [hq]
  exact parseFloat_oneDecimal n (by omega)

theorem fameOrder_of_some (x y : FameEntry) (a b : Double)
    (hx : parseQuality x.quality = some a) (hy : parseQuality y.quality = some b) :
    fameOrder x y ↔ b.mant * 2 ^ a.scale ≤ a.mant * 2 ^ b.scale := by
  unfold fameOrder
  rw [hx, hy]

theorem fameOrder_total (x y : FameEntry) : fameOrder x y ∨ fameOrder y x := by
  unfold fameOrder
  cases hx : parseQuality x.quality <;> cases hy : parseQuality y.quality <;> simp
  omega

theorem fameOrder_trans (x y z : FameEntry) (a b c : Double)
    (hx : parseQuality x.quality = some a) (hy : parseQuality y.quality = some b)
    (hz : parseQuality z.quality = some c) (hxy : fameOrder x y) (hyz : fameOrder y z) :
    fameOrder x z := by
  rw [fameOrder_of_some x y a b hx hy] at hxy
  rw [fameOrder_of_some y z b c hy hz] at hyz
  rw [fameOrder_of_some x z a c hx hz]
  have hpos : 0 < 2 ^ b.scale := Nat.two_pow_pos _
  apply Nat.le_of_mul_le_mul_right _ hpos
  calc c.mant * 2 ^ a.scale * 2 ^ b.scale
      = c.mant * 2 ^ b.scale * 2 ^ a.scale := by ring
    _ ≤ b.mant * 2 ^ c.scale * 2 ^ a.scale := Nat.mul_le_mul_right _ hyz
    _ = b.mant * 2 ^ a.scale * 2 ^ c.scale := by ring
    _ ≤ a.mant * 2 ^ b.scale * 2 ^ c.scale := Nat.mul_le_mul_right _ hxy
    _ = a.mant * 2 ^ c.scale * 2 ^ b.scale := by ring

theorem orderedInsert_fameOrder_sorted (x : FameEntry) (l : List FameEntry)
    (hx : ∃ d, parseQuality x.quality = some d)
    (hl : ∀ y ∈ l, ∃ d, parseQuality y.quality = some d)
    (hs : l.Pairwise fameOrder) : (l.orderedInsert fameOrder x).Pairwise fameOrder := by
  induction l with
  | nil => simp
  | cons y rest ih =>
    obtain ⟨a, ha⟩ := hx
    obtain ⟨b, hb⟩ := hl y (List.mem_cons_self _ _)
    have hrest : ∀ z ∈ rest, ∃ d, parseQuality z.quality = some d :=
      fun z hz => hl z (List.mem_cons_of_mem _ hz)
    rw [List.pairwise_cons] at hs
    simp only [List.orderedInsert]
    split
    · next hxy =>
      rw [List.pairwise_cons]
      refine ⟨?_, List.pairwise_cons.mpr hs⟩
      intro z hz
      rcases List.mem_cons.mp hz with rfl | hz
      · exact hxy
      · obtain ⟨c, hc⟩ := hrest z hz
        exact fameOrder_trans x y z a b c ha hb hc hxy (hs.1 z hz)
    · next hxy =>
      rw [List.pairwise_cons]
      refine ⟨?_, ih hrest hs.2⟩
      intro z hz
      rcases List.mem_cons.mp ((List.perm_orderedInsert _ _ _).mem_iff.mp hz) with rfl | hz
      · exact (fameOrder_total y z).resolve_right hxy
      · exact hs.1 z hz

theorem insertionSort_fameOrder_sorted (l : List FameEntry)
    (hl : ∀ y ∈ l, ∃ d, parseQuality y.quality = some d) :
    (l.insertionSort fameOrder).Pairwise fameOrder := by
  induction l with
  | nil => simp
  | cons x rest ih =>
    simp only [List.insertionSort]
    apply orderedInsert_fameOrder_sorted
    · exact hl x (List.mem_cons_self _ _)
    · intro y hy
      exact hl y (List.mem_cons_of_mem _ ((List.mem_insertionSort _).mp hy))
    · exact ih (fun y hy => hl y (List.mem_cons_of_mem _ hy))

theorem sliceTo_eq_take {α : Type} (l : List α) (limit : Int) :
    ∃ k, sliceTo l limit = l.take k := by
  unfold sliceTo
  split
  · exact ⟨_, rfl⟩
  · exact ⟨_, rfl⟩

section FameOrderFacts

variable (toLowerCase : Str → Str)

/-- Every property of `authorStats` belongs to an author that is not a key of
`Object.prototype` and holds the exact counters of that author. -/
theorem authorStats_entry (commits : List Commit) (a : Str) (s : AuthorStat)
    (h : (a, s) ∈ commits.foldl (countFame toLowerCase) []) :
    a ∉ objectPrototypeKeys ∧
    s.commits = commits.countP (fun c => decide (c.author = a)) ∧
    s.reverts = commits.countP (fun c => decide (c.author = a) && isRevert toLowerCase c) ∧
    0 < s.commits := by
  have hplain : a ∉ objectPrototypeKeys :=
    foldl_countFame_keys toLowerCase _ [] (by simp) _ h
  have hget := (Obj.mem_iff_getOwn _ a s
    (foldl_countFame_nodup_keys toLowerCase _ [] List.nodup_nil)).mp h
  rw [foldl_countFame_getOwn toLowerCase a hplain commits [] 0 0 (fun _ => rfl)
    (by simp [Obj.getOwn])] at hget
  simp only [Nat.zero_add] at hget
  split at hget
  · exact absurd hget (by simp)
  · next hne =>
    simp only [Option.some.injEq] at hget
    subst hget
    exact ⟨hplain, rfl, rfl, by simp only; omega⟩

/-- An author that is not a key of `Object.prototype` and has a commit is a property of
`authorStats`. -/
theorem authorStats_of_plain_author (commits : List Commit) (a : Str)
    (ha : a ∉ objectPrototypeKeys)
    (hc : 0 < commits.countP (fun c => decide (c.author = a))) :
    (a, (⟨commits.countP (fun c => decide (c.author = a)),
        commits.countP (fun c => decide (c.author = a) && isRevert toLowerCase c)⟩ : AuthorStat))
      ∈ commits.foldl (countFame toLowerCase) [] := by
  apply Obj.mem_of_getOwn
  rw [foldl_countFame_getOwn toLowerCase a ha commits [] 0 0 (fun _ => rfl)
    (by simp [Obj.getOwn])]
  simp only [Nat.zero_add]
  rw [if_neg (by omega)]

/-- The rows of `getHallOfFame` are a prefix of the eligible rows sorted by the comparator. -/
theorem getHallOfFame_eq_take (log : Str) (limit : Int) :
    ∃ k, getHallOfFame toLowerCase log limit
      = ((((Obj.entries ((parseCommits log).foldl (countFame toLowerCase) [])).map
            (fun p => ({ author := p.1, commits := p.2.commits, reverts := p.2.reverts,
                         quality := qualityOf p.2 } : FameEntry))).filter
            (fun s => decide (s.commits ≥ 5))).insertionSort fameOrder).take k := by
  unfold getHallOfFame
  exact sliceTo_eq_take _ _

theorem eligible_rows_sorted (log : Str) :
    ((((Obj.entries ((parseCommits log).foldl (countFame toLowerCase) [])).map
            (fun p => ({ author := p.1, commits := p.2.commits, reverts := p.2.reverts,
                         quality := qualityOf p.2 } : FameEntry))).filter
            (fun s => decide (s.commits ≥ 5))).insertionSort fameOrder).Pairwise fameOrder := by
  apply insertionSort_fameOrder_sorted
  intro y hy
  rw [List.mem_filter, List.mem_map] at hy
  obtain ⟨⟨p, hp, rfl⟩, _⟩ := hy
  obtain ⟨a, s⟩ := p
  have h := authorStats_entry toLowerCase _ a s ((Obj.entries_perm _).mem_iff.mp hp)
  obtain ⟨n, _, _, hparse, _⟩ := parseQuality_qualityOf s h.2.2.2
  exact ⟨_, hparse⟩

/-- The rows of `getHallOfFame` are in the order of the comparator, for every log and limit:
no row has a quality that reads as a smaller number than a later row's. -/
theorem getHallOfFame_sorted (log : Str) (limit : Int) :
    (getHallOfFame toLowerCase log limit).Pairwise fameOrder := by
  obtain ⟨k, hk⟩ := getHallOfFame_eq_take toLowerCase log limit
  rw [hk]
  exact (eligible_rows_sorted toLowerCase log).sublist (List.take_sublist _ _)

/-- For a limit that is not negative, `getHallOfFame` returns at most `limit` rows. -/
theorem getHallOfFame_length_le (log : Str) (limit : Int) (h : 0 ≤ limit) :
    (getHallOfFame toLowerCase log limit).length ≤ limit.toNat := by
  unfold getHallOfFame
  exact length_sliceTo_le _ _ h

/-- An author that is not a key of `Object.prototype`, has 5 commits or more and is left out of
the result does not have a higher quality than a row of the result. -/
theorem getHallOfFame_top_of_plain_author (log : Str) (limit : Int) (a : Str)
    (ha : a ∉ objectPrototypeKeys)
    (h5 : 5 ≤ (parseCommits log).countP (fun c => decide (c.author = a)))
    (hout : ∀ e ∈ getHallOfFame toLowerCase log limit, e.author ≠ a) :
    ∀ y ∈ getHallOfFame toLowerCase log limit,
      fameOrder y
        { author := a
          commits := (parseCommits log).countP (fun c => decide (c.author = a))
          reverts := (parseCommits log).countP
            (fun c => decide (c.author = a) && isRevert toLowerCase c)
          quality := qualityOf
            ⟨(parseCommits log).countP (fun c => decide (c.author = a)),
              (parseCommits log).countP
                (fun c => decide (c.author = a) && isRevert toLowerCase c)⟩ } := by
  obtain ⟨k, hk⟩ := getHallOfFame_eq_take toLowerCase log limit
  rw [hk] at hout ⊢
  have hmem := authorStats_of_plain_author toLowerCase (parseCommits log) a ha (by omega)
  have hrow : ({ author := a
                 commits := (parseCommits log).countP (fun c => decide (c.author = a))
                 reverts := (parseCommits log).countP
                   (fun c => decide (c.author = a) && isRevert toLowerCase c)
                 quality := qualityOf
                   ⟨(parseCommits log).countP (fun c => decide (c.author = a)),
                     (parseCommits log).countP
                       (fun c => decide (c.author = a) && isRevert toLowerCase c)⟩ } : FameEntry)
      ∈ (((Obj.entries ((parseCommits log).foldl (countFame toLowerCase) [])).map
            (fun p => ({ author := p.1, commits := p.2.commits, reverts := p.2.reverts,
                         quality := qualityOf p.2 } : FameEntry))).filter
            (fun s => decide (s.commits ≥ 5))).insertionSort fameOrder := by
    rw [List.mem_insertionSort, List.mem_filter, List.mem_map]
    refine ⟨⟨_, (Obj.entries_perm _).mem_iff.mpr hmem, rfl⟩, ?_⟩
    simpa using h5
  have hsorted := eligible_rows_sorted toLowerCase log
  rw [← List.take_append_drop k
    ((((Obj.entries ((parseCommits log).foldl (countFame toLowerCase) [])).map
            (fun p => ({ author := p.1, commits := p.2.commits, reverts := p.2.reverts,
                         quality := qualityOf p.2 } : FameEntry))).filter
            (fun s => decide (s.commits ≥ 5))).insertionSort fameOrder)] at hrow hsorted
  rw [List.pairwise_append] at hsorted
  rcases List.mem_append.mp hrow with hin | hin
  · exact absurd rfl (hout _ hin)
  · intro y hy
    exact hsorted.2.2 y hy _ hin

end FameOrderFacts

section FurtherClaims

variable (toLowerCase : Str → Str)

/-- C11: `recentReverts` is the first five entries (all of them when there are fewer) of the
parsed commits whose lower-cased message contains `revert`, in log order; its length is
`min(5, totalReverts)` and `totalReverts` is the length of that filtered list. -/
theorem getRevertStats_recentReverts (log : Str) :
    (getRevertStats toLowerCase log).recentReverts
      = ((parseCommits log).filter
          (fun c => includes (toLowerCase c.message) "revert".toList)).take 5 ∧
    (getRevertStats toLowerCase log).recentReverts.length
      = min 5 (getRevertStats toLowerCase log).totalReverts ∧
    (getRevertStats toLowerCase log).totalReverts
      = ((parseCommits log).filter
          (fun c => includes (toLowerCase c.message) "revert".toList)).length := by
  refine ⟨rfl, ?_, rfl⟩
  simp only [getRevertStats, List.length_take]

/-- C12: every row that `getHallOfFame` returns, for any log and any limit, belongs to an author
with at least 5 parsed commits; its `commits` and `reverts` are the numbers of that author's
commits and of those whose message contains `revert`, so `reverts` is at most `commits`; and its
`quality` is the numeral with one decimal of `n / 10` for some `n` from 0 to 1000, which
`parseFloat` reads as a number between 0 and 100. -/
theorem getHallOfFame_entries (log : Str) (limit : Int) (e : FameEntry)
    (he : e ∈ getHallOfFame toLowerCase log limit) :
    5 ≤ (parseCommits log).countP (fun c => decide (c.author = e.author)) ∧
    e.commits = (parseCommits log).countP (fun c => decide (c.author = e.author)) ∧
    e.reverts = (parseCommits log).countP
      (fun c => decide (c.author = e.author) && isRevert toLowerCase c) ∧
    e.reverts ≤ e.commits ∧
    ∃ n, n ≤ 1000 ∧ e.quality = JsVal.str (oneDecimal n) ∧
      parseQuality e.quality = some (roundFrac n 10) ∧
      (roundFrac n 10).mant ≤ 100 * 2 ^ (roundFrac n 10).scale := by
  have h1 := mem_of_mem_sliceTo _ _ _ he
  rw [List.mem_insertionSort, List.mem_filter, List.mem_map] at h1
  obtain ⟨⟨p, hp, rfl⟩, h5⟩ := h1
  obtain ⟨a, s⟩ := p
  obtain ⟨_, hN, hR, hpos⟩ :=
    authorStats_entry toLowerCase _ a s ((Obj.entries_perm _).mem_iff.mp hp)
  simp only [decide_eq_true_eq] at h5
  have hle : (parseCommits log).countP
      (fun c => decide (c.author = a) && isRevert toLowerCase c)
      ≤ (parseCommits log).countP (fun c => decide (c.author = a)) := by
    apply List.countP_mono_left
    intro c _ h
    simp only [Bool.and_eq_true] at h
    exact h.1
  refine ⟨?_, hN, hR, ?_, parseQuality_qualityOf s hpos⟩
  · simp only
    omega
  · simp only
    omega

/-- Witness for C12: the row of `bob` in the hall of fame of `logConstructorAndBobFame`. -/
theorem getHallOfFame_entries_witness :
    5 ≤ (parseCommits logConstructorAndBobFame).countP
      (fun c => decide (c.author = "bob".toList)) ∧
    ∃ n, n ≤ 1000 ∧ JsVal.str "80.0".toList = JsVal.str (oneDecimal n) ∧
      parseQuality (JsVal.str "80.0".toList) = some (roundFrac n 10) ∧
      (roundFrac n 10).mant ≤ 100 * 2 ^ (roundFrac n 10).scale :=
  have h := getHallOfFame_entries toLowerASCII logConstructorAndBobFame 10
    ⟨"bob".toList, 5, 1, JsVal.str "80.0".toList⟩ (by decide)
  ⟨h.1, h.2.2.2.2⟩

/-- C13 (code defect): on `logConstructorAndBobFame` the author `constructor` has 5 commits and
no revert, which makes a quality of `100.0`, and is left out of `getHallOfFame(10)`, whose only
row is `bob` with quality `80.0`: `authorStats["constructor"]` is the inherited function
`Object`, so the author never becomes a property of `authorStats`. -/
theorem getHallOfFame_constructor_left_out :
    (parseCommits logConstructorAndBobFame).countP
        (fun c => decide (c.author = "constructor".toList)) = 5 ∧
    (parseCommits logConstructorAndBobFame).countP
        (fun c => decide (c.author = "constructor".toList) && isRevert toLowerASCII c) = 0 ∧
    qualityOf ⟨5, 0⟩ = JsVal.str "100.0".toList ∧
    getHallOfFame toLowerASCII logConstructorAndBobFame 10
      = [⟨"bob".toList, 5, 1, JsVal.str "80.0".toList⟩] := by
  decide

/-- C14 (code defect): `logAliceWithHotfix` has the first line
`abc123|Alice|a@x.com|Revert "bad change"` followed by four commits of `Alice` whose messages do
not contain `revert`.  The row of `Alice` has `changes` 5 and `getStreak("Alice")` is 0, but its
`reverts` is 2 and not 1: the filter of `getShameScores` also keeps `hotfix login`, against the
comment on it, `Detect reverts (commit messages containing "Revert" or "revert")`.  On the same
log `getRevertStats` and `getHallOfFame`, which test `revert` alone, count 1 revert for
`Alice`. -/
theorem alice_hotfix_counts_as_revert :
    (parseCommits logAliceWithHotfix).length = 5 ∧
    (parseCommits logAliceWithHotfix).head?
      = some ⟨"abc123".toList, "Alice".toList, "a@x.com".toList,
          "Revert \"bad change\"".toList⟩ ∧
    (∀ c ∈ (parseCommits logAliceWithHotfix).drop 1,
      c.author = "Alice".toList ∧
      includes (toLowerASCII c.message) "revert".toList = false) ∧
    (getShameScores toLowerASCII logAliceWithHotfix).leaderboard.map
        (fun e => (e.author, e.reverts, e.changes))
      = [("Alice".toList, some (Num.int 2), some (Num.int 5))] ∧
    getStreak toLowerASCII logAliceWithHotfix "Alice".toList = 0 ∧
    (getRevertStats toLowerASCII logAliceWithHotfix).totalReverts = 1 ∧
    (getRevertStats toLowerASCII logAliceWithHotfix).byAuthor
      = [("Alice".toList, JsVal.num 1)] ∧
    (getHallOfFame toLowerASCII logAliceWithHotfix 10).map
        (fun e => (e.author, e.commits, e.reverts))
      = [("Alice".toList, 5, 1)] := by
  decide

/-- Where the filter of `getShameScores` and the test for `revert` agree: when the 4 further
commits of `Alice` in `aliceLog` have messages with none of `revert`, `fix:`, `hotfix` after
lower-casing, there is a row of `Alice`, every row of `Alice` has `reverts` 1 and `changes` 5,
and `getStreak("Alice")` is 0.  The lower-casing is only asked to make the first subject
contain `revert`. -/
theorem alice_row_without_fix_keywords (further : List (Str × Str × Str))
    (hfirst : includes (toLowerCase "Revert \"bad change\"".toList) "revert".toList = true)
    (hlen : further.length = 4)
    (hlines : ∀ x ∈ further, '|' ∉ x.1 ∧ '\n' ∉ x.1 ∧ '|' ∉ x.2.1 ∧ '\n' ∉ x.2.1 ∧
      '\n' ∉ x.2.2)
    (hclean : ∀ x ∈ further,
      includes (toLowerCase x.2.2) "revert".toList = false ∧
      includes (toLowerCase x.2.2) "fix:".toList = false ∧
      includes (toLowerCase x.2.2) "hotfix".toList = false) :
    (∃ e ∈ (getShameScores toLowerCase (aliceLog further)).leaderboard,
      e.author = "Alice".toList) ∧
    (∀ e ∈ (getShameScores toLowerCase (aliceLog further)).leaderboard,
      e.author = "Alice".toList →
        e.reverts = some (Num.int 1) ∧ e.changes = some (Num.int 5)) ∧
    getStreak toLowerCase (aliceLog further) "Alice".toList = 0 := by
  have hparse := parseCommits_aliceLog further hlines
  have hplain : "Alice".toList ∉ objectPrototypeKeys := by decide
  have hrl0 : isRevertLike toLowerCase
      ⟨"abc123".toList, "Alice".toList, "a@x.com".toList, "Revert \"bad change\"".toList⟩
      = true := by
    simp only [isRevertLike, hfirst, Bool.true_or]
  have hR : (parseCommits (aliceLog further)).countP
      (fun c => decide (c.author = "Alice".toList) && isRevertLike toLowerCase c) = 1 := by
    rw [hparse, List.countP_cons, List.countP_map]
    have hz : List.countP
        ((fun c => decide (c.author = "Alice".toList) && isRevertLike toLowerCase c) ∘
          (fun x : Str × Str × Str => (⟨x.1, "Alice".toList, x.2.1, x.2.2⟩ : Commit)))
        further = 0 := by
      rw [List.countP_eq_zero]
      intro x hx
      obtain ⟨h1, h2, h3⟩ := hclean x hx
      simp only [Function.comp, isRevertLike, h1, h2, h3, Bool.or_false, Bool.and_false,
        Bool.false_eq_true, not_false_eq_true]
    rw [hz]
    simp only [hrl0, decide_True, Bool.and_self, if_true]
  have hN : (parseCommits (aliceLog further)).countP
      (fun c => decide (c.author = "Alice".toList)) = 5 := by
    rw [hparse, List.countP_cons, List.countP_map]
    have hall : List.countP
        ((fun c => decide (c.author = "Alice".toList)) ∘
          (fun x : Str × Str × Str => (⟨x.1, "Alice".toList, x.2.1, x.2.2⟩ : Commit)))
        further = further.length := by
      rw [List.countP_eq_length]
      intro x _
      simp only [Function.comp, decide_True]
    rw [hall, hlen]
    simp only [decide_True, if_true]
  refine ⟨?_, ?_, ?_⟩
  · apply leaderboard_has_plain_author toLowerCase _ _ hplain
    refine ⟨⟨"abc123".toList, "Alice".toList, "a@x.com".toList,
      "Revert \"bad change\"".toList⟩, ?_, rfl, Or.inl hrl0⟩
    rw [hparse]
    exact List.mem_cons_self _ _
  · intro e he hea
    have h := leaderboard_entry_of_plain_author toLowerCase _ e he (hea ▸ hplain)
    rw [hea, hR, hN] at h
    exact ⟨h.2.1, h.2.2.2⟩
  · unfold getStreak
    rw [hparse]
    simp only [List.filter_cons, decide_True, if_true, streakLoop, breaksStreak, hfirst,
      Bool.true_or]

/-- C15: on the empty log text, which is also what `getGitLog` returns when the external
command fails, every aggregation returns empty collections and zero counts. -/
theorem aggregations_of_empty_log (author : Str) (limit : Int) (failure : String) :
    getGitLog (Except.error failure) = [] ∧
    parseCommits [] = [] ∧
    getShameScores toLowerCase [] = ⟨[], 0⟩ ∧
    getCIFailureStats toLowerCase [] = ⟨0, []⟩ ∧
    getRevertStats toLowerCase [] = ⟨0, [], []⟩ ∧
    getStreak toLowerCase [] author = 0 ∧
    getHallOfFame toLowerCase [] limit = [] ∧
    getHallOfShame toLowerCase [] limit = [] := by
  have hp : parseCommits [] = [] := by decide
  refine ⟨rfl, hp, ?_, ?_, ?_, ?_, ?_, ?_⟩
  · simp only [getShameScores, hp, tally, List.filter_nil, List.foldl_nil, Obj.entries,
      List.insertionSort, List.append_nil, List.mapIdx_nil, List.length_nil]
  · simp only [getCIFailureStats, hp, List.filter_nil, List.foldl_nil, List.length_nil]
  · simp only [getRevertStats, hp, List.filter_nil, List.foldl_nil, List.length_nil,
      List.take_nil]
  · simp only [getStreak, hp, List.filter_nil, streakLoop]
  · simp only [getHallOfFame, hp, List.foldl_nil, Obj.entries, List.filter_nil,
      List.insertionSort, List.append_nil, List.map_nil, sliceTo, List.take_nil, ite_self]
  · simp only [getHallOfShame, getShameScores, hp, tally, List.filter_nil, List.foldl_nil,
      Obj.entries, List.insertionSort, List.append_nil, List.mapIdx_nil, sliceTo, List.take_nil,
      ite_self]

/-- C16 (as stated, refuted): the log text `logOf101Lines` has 101 lines, each the line of a
commit, and `parseCommits` returns 101 commits. -/
theorem parseCommits_of_101_lines :
    (parseCommits logOf101Lines).length = 101 ∧ ¬ (parseCommits logOf101Lines).length ≤ 100 := by
  have h : parseCommits logOf101Lines
      = (List.replicate 101
          "3f2a9c1e5b7d4a6081c2e3f4a5b6c7d8e9f0a1b2|Alice|a@x.com|add tests".toList).map
          parseLine := by
    unfold logOf101Lines
    apply parseCommits_join_lines
    · simp
    · intro l hl
      rw [List.eq_of_mem_replicate hl]
      decide
    · intro l hl
      rw [List.eq_of_mem_replicate hl]
      decide
  rw [h]
  simp

/-- C16 (amended): for a log text of at most 100 lines, as `git log -100` prints with one line
per commit, the output of `parseCommits` is the sequence of the commits parsed from the
non-blank lines, in the order of the lines, and its length is at most 100. -/
theorem parseCommits_length_le_of_lines (log : Str) (h : (split '\n' log).length ≤ 100) :
    parseCommits log
      = ((split '\n' log).filter (fun line => decide (trim line ≠ []))).map parseLine ∧
    ((split '\n' log).filter (fun line => decide (trim line ≠ []))).Sublist (split '\n' log) ∧
    (parseCommits log).length ≤ 100 := by
  have e : parseCommits log
      = ((split '\n' log).filter (fun line => decide (trim line ≠ []))).map parseLine := by
    unfold parseCommits
    congr 1
    apply List.filter_congr
    intro l _
    cases h : trim l <;> simp
  refine ⟨e, List.filter_sublist _, ?_⟩
  rw [e, List.length_map]
  exact Nat.le_trans (List.length_filter_le _ _) h

/-- Witness for C16: a log of three lines, one of them blank. -/
theorem parseCommits_length_le_of_lines_witness :
    (parseCommits "a|Al|e|one\n\nb|Bo|e|two".toList).length ≤ 100 :=
  (parseCommits_length_le_of_lines "a|Al|e|one\n\nb|Bo|e|two".toList (by decide)).2.2

/-- C17 (code defect): on `logConstructorAndBob` the row of `constructor` has a string as
score, `NaN` as `reverts` and `changes` and no `fixes`, so it satisfies none of
`score = 10 * reverts + 5 * fixes`, `reverts <= changes`, `5 <= score <= 15 * changes`; the row
of `bob` has score 15 with counters 1, 1, 1. -/
theorem getShameScores_constructor_row_bounds :
    (getShameScores toLowerASCII logConstructorAndBob).leaderboard.map
        (fun e => (e.author, e.score, e.reverts, e.fixes, e.changes))
      = [("constructor".toList,
            JsVal.str "function Object() \x7b [native code] \x7d10".toList,
            some Num.nan, none, some Num.nan),
         ("bob".toList, JsVal.num 15, some (Num.int 1), some (Num.int 1), some (Num.int 1))] ∧
    (getShameScores toLowerASCII logConstructorAndBob).totalCommits = 2 := by
  decide

/-- C18 (code defect): on `logConstructorHotfix` the one commit contains `hotfix`, it is
revert-like and CI-failure-like, and the score of its author `constructor` is the string
`function Object() { [native code] }105`, not the number 15. -/
theorem getShameScores_constructor_hotfix :
    (∀ c ∈ parseCommits logConstructorHotfix,
      includes (toLowerASCII c.message) "hotfix".toList = true ∧
      isRevertLike toLowerASCII c = true ∧ isCIFailure toLowerASCII c = true) ∧
    (getShameScores toLowerASCII logConstructorHotfix).leaderboard.map
        (fun e => (e.author, e.score))
      = [("constructor".toList,
          JsVal.str "function Object() \x7b [native code] \x7d105".toList)] := by
  decide

/-- C19 (code defect): on `logProtoRevert` the one commit is a revert, `totalReverts` is 1 and
`byAuthor` has no property at all, so the tallies add up to 0 and not to 1. -/
theorem getRevertStats_proto_author_untallied :
    (getRevertStats toLowerASCII logProtoRevert).totalReverts = 1 ∧
    (getRevertStats toLowerASCII logProtoRevert).byAuthor = [] ∧
    sumCounts (getRevertStats toLowerASCII logProtoRevert).byAuthor = 0 := by
  decide

end FurtherClaims

end GitShame
